import Mathlib

/-!
# Verification of the pixel-bonsai growth core

Shallow embedding of the space-colonization growth engine of the
`pixel-bonsai` repository (`src/main.rs`, with `src/l.rs` an earlier
iteration of the same sampler), together with proofs about it.

Modelling conventions:
* `f32` values are modelled as exact rationals (`ℚ`).  Floating-point
  rounding drift is modelled where it matters (the density sampler) by
  allowing the stored cumulative values (`rows`, `sum`) to be arbitrary
  rationals rather than the exact column sums.
* `usize` values are `Nat`.
* The square root used by `Vector2::length`/`normalized`, the float
  power `powf`, and the thread-local random number generator are not
  rational-valued computable operations; they are passed in as an
  explicit environment (`Env`) of oracle functions.  No theorem below
  depends on properties of these oracles unless stated as a hypothesis.
* Rust panics (a failed `assert!`, a `usize` underflow or out-of-range
  index) are modelled by `Option`: `none` means the program aborts.
-/

namespace Bonsai

/-! ## Density sampler (`SimplexDensityPRG`, `src/main.rs` lines 11-79)

The struct stores a per-cell density `buf`, per-column totals `rows`
and the grand total `sum`.  In the Rust program `rows` and `sum` are
computed by `f32` summation of `buf`, so they can drift away from the
exact column sums; the model therefore treats them as independent
stored fields. -/

structure DensityMap where
  buf : List (List ℚ)
  rows : List ℚ
  sum : ℚ
deriving DecidableEq

/-- One cumulative linear walk, shared by the column walk and the
per-cell walk of `sample`: starting at index 0, while the index is in
range and the remaining random mass is `≥` the current entry, subtract
the entry and advance.  Returns the final index together with the
remaining mass.  (`while x < len && rand >= vals[x] { rand -= vals[x]; x += 1 }`) -/
def cumWalk : List ℚ → ℚ → Nat × ℚ
  | [], r => (0, r)
  | v :: rest, r =>
    if v ≤ r then
      let w := cumWalk rest (r - v)
      (w.1 + 1, w.2)
    else (0, r)

/-- `SimplexDensityPRG::sample` (`src/main.rs` lines 56-78).
`r` is the value drawn from the random source (`rand.gen::<f32>()`).
The `assert!(0.0 <= rand && rand < 1.0)` is the first `none` case; the
`usize` underflow of `x -= 1` on an empty `buf` is the second.
The column walk in the source is bounded by `buf.len()` while reading
`rows`; theorems below carry the hypothesis `rows.length = buf.length`
(true of every map built by `SimplexDensityPRG::new`), under which the
walk over `rows` used here is the same walk. -/
def sample (m : DensityMap) (r : ℚ) : Option (Nat × Nat) :=
  if 0 ≤ r ∧ r < 1 then
    let w := cumWalk m.rows (r * m.sum)
    if w.1 = m.buf.length then
      if m.buf.length = 0 then none
      else
        let x := m.buf.length - 1
        some (x, (cumWalk (m.buf.getD x []) w.2).1)
    else
      some (w.1, (cumWalk (m.buf.getD w.1 []) w.2).1)
  else none

/-! ## 2D vectors (raylib `Vector2`, over exact rationals) -/

structure V2 where
  x : ℚ
  y : ℚ
deriving DecidableEq

def V2.add (a b : V2) : V2 := ⟨a.x + b.x, a.y + b.y⟩

def V2.sub (a b : V2) : V2 := ⟨a.x - b.x, a.y - b.y⟩

def V2.smul (a : V2) (c : ℚ) : V2 := ⟨a.x * c, a.y * c⟩

def V2.zero : V2 := ⟨0, 0⟩

/-- Squared length, `Vector2::length_sqr`. -/
def V2.lensq (a : V2) : ℚ := a.x * a.x + a.y * a.y

/-- Linear interpolation, `Vector2::lerp(self, other, t) = self + (other - self) * t`. -/
def V2.lerp (a b : V2) (t : ℚ) : V2 := ⟨a.x + (b.x - a.x) * t, a.y + (b.y - a.y) * t⟩

/-- Oracle environment for the operations that have no exact rational
counterpart: the square root behind `Vector2::length`/`normalized`, the
float power `powf`, and the random draw consumed once per proposal by
`Node::new_branch` (`rand::random::<f32>()`), indexed here by the
proposing node's arena index.  No theorem relies on properties of these
oracles unless stated as an explicit hypothesis. -/
structure Env where
  sqrtA : ℚ → ℚ
  powA : ℚ → ℚ → ℚ
  rnd : Nat → ℚ

/-- Unit-direction scaling, `Vector2::normalized`: scale by the
reciprocal of the length (the oracle square root of `length_sqr`). -/
def V2.normalized (env : Env) (v : V2) : V2 := v.smul (1 / env.sqrtA v.lensq)

/-! ## Node arena data model (`src/main.rs` lines 88-155) -/

/-- Run configuration (`Config`, lines 88-114); the rendering color
palette is omitted, every numeric field is kept.  The source field
`prune_size_ratio` is called `prune_size_frac` here. -/
structure Config where
  attraction_dist : ℚ
  kill_dist : ℚ
  grow_dist : ℚ
  node_min_dist : ℚ
  width : ℚ
  height : ℚ
  max_children : Nat
  max_depth : Nat
  num_points : Nat
  min_y_growth : ℚ
  parent_dir_factor : ℚ
  weight_display_pow : ℚ
  prune_pow : ℚ
  prune_size_frac : ℚ
  leaf_max_width : ℚ
  sprout_max_width : ℚ
  leaf_size : ℚ
  node_depth_change : ℚ
  node_depth_max : Nat
  pixel_size : Nat
deriving DecidableEq

/-- One branch node (`Node`, lines 116-127). -/
structure Node where
  alive : Bool
  pos : V2
  parent : Option Nat
  child_count : Nat
  depth : Nat
  weight : Nat
  z : ℚ
deriving DecidableEq

instance : Inhabited Node :=
  ⟨{ alive := true, pos := V2.zero, parent := none, child_count := 0,
     depth := 0, weight := 1, z := 0 }⟩

/-- `Node::new_root` (lines 130-140). -/
def Node.new_root (pos : V2) : Node :=
  { alive := true, pos := pos, parent := none, child_count := 0,
    depth := 0, weight := 1, z := 0 }

/-- `Node::new_branch` (lines 141-154); `r` is the oracle value of
`rand::random::<f32>()`. -/
def Node.new_branch (pos : V2) (parent_idx : Nat) (parent : Node) (config : Config)
    (r : ℚ) : Node :=
  let z_change := (2 * r - 1) * config.node_depth_change
  let z := parent.z + z_change
  let z := min (max z 0) (config.node_depth_max : ℚ)
  { alive := true, pos := pos, parent := some parent_idx, child_count := 0,
    depth := parent.depth + 1, weight := 1, z := z }

/-- The tree (`Tree`, lines 163-168). -/
structure Tree where
  nodes : List Node
  config : Config
  points : List V2
  growing : Bool
deriving DecidableEq

/-- `Tree::new` (lines 182-199).  In the source the attraction points
are drawn from the density sampler with the thread RNG; the drawn list
is a parameter of the model. -/
def Tree.new (config : Config) (points : List V2) : Tree :=
  { nodes := [Node.new_root ⟨config.width / 2, config.height / 10⟩],
    config := config, points := points, growing := true }

/-! ## List helpers for in-place indexed mutation -/

/-- Shallow embedding of `xs[i] = f(xs[i])`; an out-of-range index
leaves the list unchanged (the source would panic there, and every
theorem only applies it in range). -/
def modifyIdx (f : α → α) : Nat → List α → List α
  | _, [] => []
  | 0, a :: t => f a :: t
  | i+1, a :: t => a :: modifyIdx f i t

/-- Map with the element's index, starting at `i`. -/
def mapIdxFrom (f : Nat → α → β) : Nat → List α → List β
  | _, [] => []
  | i, a :: t => f i a :: mapIdxFrom f (i + 1) t

/-! ## Growth step (`Tree::sim`, lines 254-324) -/

/-- Relative vectors to the attraction points within `attraction_dist`
of a node (lines 263-270). -/
def nearPts (config : Config) (points : List V2) (npos : V2) : List V2 :=
  (points.map (fun p => V2.sub p npos)).filter
    (fun p => decide (p.lensq < config.attraction_dist * config.attraction_dist))

/-- Direction of the previous growth step (lines 280-285): offset from
the parent, or straight up of length `grow_dist` for the root. -/
def prevDir (config : Config) (nodes : List Node) (node : Node) : V2 :=
  match node.parent with
  | some p => V2.sub node.pos (nodes.getD p default).pos
  | none => ⟨0, config.grow_dist⟩

/-- The proposal one node makes during a cycle (lines 259-293):
`none` when the node is ineligible or attracts no points. -/
def propose (env : Env) (config : Config) (nodes : List Node) (points : List V2)
    (node_idx : Nat) (node : Node) : Option Node :=
  if node.child_count ≥ config.max_children ∨ node.alive = false then none
  else
    let near := nearPts config points node.pos
    if near = [] then none
    else
      let avg_dir := (V2.normalized env (near.foldl V2.add V2.zero)).smul config.grow_dist
      let delta := V2.lerp avg_dir (prevDir config nodes node) config.parent_dir_factor
      some (Node.new_branch (V2.add node.pos delta) node_idx node config (env.rnd node_idx))

/-- All proposals of one cycle in arena order (`new_nodes`), computed
from the pre-cycle snapshot. -/
def newNodes (env : Env) (t : Tree) : List Node :=
  (List.range t.nodes.length).filterMap
    (fun i => propose env t.config t.nodes t.points i (t.nodes.getD i default))

/-- Attraction-point consumption (`points.drain_filter`, lines 295-301):
keep exactly the points beyond `kill_dist` of every current node. -/
def consumePoints (config : Config) (nodes : List Node) (points : List V2) : List V2 :=
  points.filter (fun p =>
    ! nodes.any (fun node =>
      decide ((V2.sub p node.pos).lensq < config.kill_dist * config.kill_dist)))

/-- One step of the sequential acceptance loop (lines 302-319); the
state is the arena so far — including proposals accepted earlier in the
same cycle — paired with the `has_change` flag.  Proposals always carry
`some` parent, so the `none` branch is unreachable (the source would
panic on `unwrap`). -/
def acceptStep (config : Config) (st : List Node × Bool) (node : Node) : List Node × Bool :=
  match node.parent with
  | none => st
  | some p =>
    if node.depth > config.max_depth ∨
        node.pos.y - (st.1.getD p default).pos.y < config.min_y_growth then st
    else if st.1.any (fun nod => decide ((V2.sub nod.pos node.pos).lensq <
        config.node_min_dist * config.node_min_dist)) then st
    else
      (modifyIdx (fun nd => { nd with child_count := nd.child_count + 1 }) p st.1 ++ [node],
        true)

/-! ## Pruning (`Tree::prune`, lines 326-351) -/

/-- Direct death test of `node` against every `conflict` (lines 329-336):
much smaller than the conflict and closer than `conflict.weight ^ prune_pow`. -/
def directMark (env : Env) (config : Config) (nodes : List Node) (node : Node) : Bool :=
  nodes.any (fun conflict =>
    decide ((node.weight : ℚ) < config.prune_size_frac * (conflict.weight : ℚ)) &&
    decide (env.sqrtA (V2.sub conflict.pos node.pos).lensq <
      env.powA (conflict.weight : ℚ) config.prune_pow))

/-- Ancestor chain of a node, following `parent` links (the
`while let Some(ancestor_idx)` walk of lines 339-345).  The source walk
terminates because parent indices strictly decrease; the embedding runs
the same walk on a fuel bounded by the arena size, which that invariant
proves sufficient. -/
def ancChainAux (nodes : List Node) : Nat → Option Nat → List Nat
  | _, none => []
  | 0, some _ => []
  | fuel+1, some a => a :: ancChainAux nodes fuel (nodes.getD a default).parent

def ancChain (nodes : List Node) (node : Node) : List Nat :=
  ancChainAux nodes nodes.length node.parent

/-- Transitive part of the death-mark pass for one node: walk its
ancestor chain, pushing the node's own index whenever an ancestor is
already in the evolving death list. -/
def transWalk (node_idx : Nat) (marks : List Nat) : List Nat → List Nat
  | [] => marks
  | a :: rest =>
    transWalk node_idx (if a ∈ marks then marks ++ [node_idx] else marks) rest

/-- Death marks accumulated by the first `k` iterations of `prune`'s
marking loop (lines 327-346): per node, the direct test (pushed once —
the source pushes once per matching conflict, which is the same set)
followed by the transitive ancestor walk. -/
def pruneMarksUpTo (env : Env) (config : Config) (nodes : List Node) : Nat → List Nat
  | 0 => []
  | k+1 =>
    let prev := pruneMarksUpTo env config nodes k
    let node := nodes.getD k default
    let withDirect := if directMark env config nodes node then prev ++ [k] else prev
    transWalk k withDirect (ancChain nodes node)

def pruneMarks (env : Env) (config : Config) (nodes : List Node) : List Nat :=
  pruneMarksUpTo env config nodes nodes.length

/-- Application of the death marks (`for death in death_node` loop,
lines 348-350): set `alive = false` on every marked index. -/
def killMarked (marks : List Nat) (nodes : List Node) : List Node :=
  mapIdxFrom (fun i nd => if i ∈ marks then { nd with alive := false } else nd) 0 nodes

/-- `Tree::prune` (lines 326-351): compute all death marks over the
current snapshot, then set `alive = false` on every marked node. -/
def Tree.prune (env : Env) (t : Tree) : Tree :=
  { t with nodes := killMarked (pruneMarks env t.config t.nodes) t.nodes }

/-! ## Weight recomputation (`Tree::recalculate_weight`, lines 352-363) -/

/-- One step of the reverse pass: fold the weight of node `idx` into its
parent (lines 357-362). -/
def weightStep (ns : List Node) (idx : Nat) : List Node :=
  match (ns.getD idx default).parent with
  | some p =>
    modifyIdx (fun nd => { nd with weight := nd.weight + (ns.getD idx default).weight }) p ns
  | none => ns

/-- Weight reset (`node.weight = 1` loop, lines 353-355).  This is also
used as the projection that forgets the one field
`recalculate_weight` writes. -/
def resetWeight (nd : Node) : Node := { nd with weight := 1 }

/-- `Tree::recalculate_weight`: reset every weight to 1, then iterate
the arena in strictly descending index order, adding each node's weight
into its parent's. -/
def recalcNodes (nodes : List Node) : List Node :=
  ((List.range nodes.length).reverse).foldl weightStep (nodes.map resetWeight)

def Tree.recalculate_weight (t : Tree) : Tree :=
  { t with nodes := recalcNodes t.nodes }

/-! ## The growth cycle (`Tree::sim`) and sequences of cycles -/

/-- `Tree::sim` (lines 254-324): no-op when not growing; otherwise
propose from the snapshot, consume points, sequentially accept, update
the `growing` flag, then prune and reweight. -/
def Tree.sim (env : Env) (t : Tree) : Tree :=
  if t.growing = false then t
  else
    let cands := newNodes env t
    let points' := consumePoints t.config t.nodes t.points
    let st := cands.foldl (acceptStep t.config) (t.nodes, false)
    let t' := { t with nodes := st.1, points := points', growing := t.growing && st.2 }
    Tree.recalculate_weight (Tree.prune env t')

/-- A sequence of growth cycles, each with its own oracle draws. -/
def simSeq (t : Tree) (envs : List Env) : Tree :=
  envs.foldl (fun acc e => Tree.sim e acc) t

/-- The three mutating operations of the core, for stating properties of
arbitrary call sequences. -/
inductive Op where
  | sim (env : Env)
  | prune (env : Env)
  | recalc

def applyOp (t : Tree) : Op → Tree
  | .sim env => Tree.sim env t
  | .prune env => Tree.prune env t
  | .recalc => Tree.recalculate_weight t

/-! ## Well-formedness of the arena -/

/-- Parent indices strictly precede their children (spec §3). -/
def wfParents (ns : List Node) : Prop :=
  ∀ j, j < ns.length → ∀ p, (ns.getD j default).parent = some p → p < j

/-- Exactly the node at index 0 is parentless. -/
def rootedAt0 (ns : List Node) : Prop :=
  ∀ j, j < ns.length → ((ns.getD j default).parent = none ↔ j = 0)

/-- Sum of the weights of the direct children of node `i`, as recorded
by the arena's own parent pointers, dead or alive. -/
def childWeightSum (ns : List Node) (i : Nat) : Nat :=
  ∑ j in (Finset.range ns.length).filter (fun j => (ns.getD j default).parent = some i),
    (ns.getD j default).weight

/-- Partial child-weight sum restricted to children of index `≥ k`
(used as the loop invariant of the reverse weight pass). -/
def childWeightSumFrom (ns : List Node) (k i : Nat) : Nat :=
  ∑ j in (Finset.range ns.length).filter
      (fun j => (ns.getD j default).parent = some i ∧ k ≤ j),
    (ns.getD j default).weight

/-! ## The reverse weight pass as indexed iteration -/

/-- The weight pass applied to the indices `k-1, k-2, ..., 0`. -/
def passDown (k : Nat) (ns : List Node) : List Node :=
  ((List.range k).reverse).foldl weightStep ns

/-- Loop invariant of the reverse pass, for the state `cur` reached once
the indices `≥ k` have been processed: the non-weight fields agree with
the input arena `ns`, indices `≥ k` already hold their final weight
(1 + sum over all children), and indices `< k` hold 1 + the partial sum
over the already-processed children. -/
def RInv (ns cur : List Node) (k : Nat) : Prop :=
  cur.length = ns.length ∧
  (∀ i, i < ns.length →
    resetWeight (cur.getD i default) = resetWeight (ns.getD i default)) ∧
  (∀ i, k ≤ i → i < ns.length →
    (cur.getD i default).weight = 1 + childWeightSum cur i) ∧
  (∀ i, i < k → i < ns.length →
    (cur.getD i default).weight = 1 + childWeightSumFrom cur k i)

/-- Projection forgetting `child_count`, the only field of a
pre-existing node the acceptance loop can write. -/
def stripCC (nd : Node) : Node := { nd with child_count := 0 }

/-- The spacing property of an arena relative to a cut `n₀`: every node
at index `≥ n₀` is at squared distance `≥ node_min_dist²` from every
other node of the arena. -/
def Spaced (cfg : Config) (n₀ : Nat) (ns : List Node) : Prop :=
  ∀ k, n₀ ≤ k → k < ns.length → ∀ j, j < ns.length → j ≠ k →
    cfg.node_min_dist * cfg.node_min_dist ≤
      (V2.sub (ns.getD k default).pos (ns.getD j default).pos).lensq

/-- Well-formedness of a tree's arena: nonempty, the node at index 0 is
the unique parentless node, and parent indices strictly precede their
children. -/
def wfTree (t : Tree) : Prop :=
  t.nodes ≠ [] ∧ rootedAt0 t.nodes ∧ wfParents t.nodes

/-- Downward closure of the dead set: a node whose parent is dead is
itself dead. -/
def closedDead (ns : List Node) : Prop :=
  ∀ j, j < ns.length → ∀ p, (ns.getD j default).parent = some p →
    (ns.getD p default).alive = false → (ns.getD j default).alive = false

/-- The tree grown from a fresh `Tree::new` by a sequence of cycles. -/
def grown (config : Config) (points : List V2) (envs : List Env) : Tree :=
  simSeq (Tree.new config points) envs

/-- The root-health invariant behind C10: the root is alive, carries
weight at least 1, and its weight is maximal over the arena. -/
def rootSound (t : Tree) : Prop :=
  (t.nodes.getD 0 default).alive = true ∧
  1 ≤ (t.nodes.getD 0 default).weight ∧
  ∀ i, i < t.nodes.length →
    (t.nodes.getD i default).weight ≤ (t.nodes.getD 0 default).weight

/-! ## Concrete instances used to exercise the theorems -/

/-- A small concrete configuration (values in the spirit of `main`,
with `kill_dist`, `prune_size_frac` and `node_depth_change` zeroed so
concrete runs stay small). -/
def cfg0 : Config :=
  { attraction_dist := 20, kill_dist := 0, grow_dist := 5, node_min_dist := 1,
    width := 500, height := 500, max_children := 3, max_depth := 5000,
    num_points := 1, min_y_growth := 0, parent_dir_factor := 1/2,
    weight_display_pow := 35/100, prune_pow := 35/100, prune_size_frac := 0,
    leaf_max_width := 3, sprout_max_width := 7/2, leaf_size := 25,
    node_depth_change := 0, node_depth_max := 5, pixel_size := 5 }

/-- A concrete oracle environment: the square root is exact on the one
perfect square a concrete run needs, the float power and the random
draws are constantly zero. -/
def env0 : Env :=
  { sqrtA := fun q => if q = 25 then 5 else 0,
    powA := fun _ _ => 0,
    rnd := fun _ => 0 }

/-- A concrete three-node arena: a root, an alive child and a dead
grandchild, with stale weights. -/
def nodesW : List Node :=
  [Node.new_root V2.zero,
   { alive := true, pos := ⟨0, 10⟩, parent := some 0, child_count := 1,
     depth := 1, weight := 5, z := 0 },
   { alive := false, pos := ⟨0, 20⟩, parent := some 1, child_count := 0,
     depth := 2, weight := 9, z := 0 }]

def treeW : Tree :=
  { nodes := nodesW, config := cfg0, points := [], growing := true }

/-- A freshly created tree with a single attraction point at squared
distance 25 from the root. -/
def tree0 : Tree := Tree.new cfg0 [⟨253, 54⟩]


/-- The root of `tree0`. -/
def root0 : Node :=
  { alive := true, pos := ⟨250, 50⟩, parent := none, child_count := 0,
    depth := 0, weight := 1, z := 0 }

/-- The proposal node of the first cycle on `tree0`: placed at
`(250,50) + lerp((3,4),(0,5),1/2)`. -/
def candR : Node :=
  { alive := true, pos := ⟨503/2, 109/2⟩, parent := some 0, child_count := 0,
    depth := 1, weight := 1, z := 0 }

/-- The result of one growth cycle on `tree0` under `env0`: the single
proposal is accepted, the root's child count becomes 1 and the
recomputed weights are 2 and 1. -/
def treeR : Tree :=
  { nodes := [
      { root0 with child_count := 1, weight := 2 },
      candR],
    config := cfg0, points := [⟨253, 54⟩], growing := true }

/-! ## Facts about the density sampler -/

/-! Basic facts about `cumWalk`. -/

theorem cumWalk_fst_le_length (vals : List ℚ) (r : ℚ) :
    (cumWalk vals r).1 ≤ vals.length := by
  induction vals generalizing r with
  | nil => simp [cumWalk]
  | cons v rest ih =>
    simp only [cumWalk]
    split
    · simpa using Nat.succ_le_succ (ih (r - v))
    · simp

/-- C1 (amended): the terminal column index of `sample` is clamped, so
`x < width` whenever `sample` returns at all; the per-cell walk inside
the chosen column is *not* clamped, so under cumulative drift the cell
index `y` can come out one past the last valid cell — all `sample`
guarantees for it is `y ≤ height` (no out-of-range read happens inside
`sample` itself, since the walk re-checks the bound each step). -/
theorem sample_column_clamped_cell_walk_unclamped (m : DensityMap) (r : ℚ) (x y : Nat)
    (hlen : m.rows.length = m.buf.length)
    (hs : sample m r = some (x, y)) :
    x < m.buf.length ∧ y ≤ (m.buf.getD x []).length := by
  unfold sample at hs
  by_cases hr : 0 ≤ r ∧ r < 1
  · rw [if_pos hr] at hs
    simp only at hs
    by_cases hx : (cumWalk m.rows (r * m.sum)).1 = m.buf.length
    · rw [if_pos hx] at hs
      by_cases h0 : m.buf.length = 0
      · rw [if_pos h0] at hs; cases hs
      · rw [if_neg h0] at hs
        rw [Option.some.injEq, Prod.mk.injEq] at hs
        obtain ⟨hx', hy'⟩ := hs
        subst hx' hy'
        exact ⟨Nat.sub_lt (Nat.pos_of_ne_zero h0) Nat.one_pos,
          cumWalk_fst_le_length _ _⟩
    · rw [if_neg hx] at hs
      rw [Option.some.injEq, Prod.mk.injEq] at hs
      obtain ⟨hx', hy'⟩ := hs
      subst hx' hy'
      refine ⟨lt_of_le_of_ne ?_ hx, cumWalk_fst_le_length _ _⟩
      calc (cumWalk m.rows (r * m.sum)).1 ≤ m.rows.length := cumWalk_fst_le_length _ _
        _ = m.buf.length := hlen
  · rw [if_neg hr] at hs; cases hs

theorem sample_column_clamped_cell_walk_unclamped_witness :
    1 < (DensityMap.mk [[1], [1]] [1, 1] 2).buf.length ∧
      0 ≤ ((DensityMap.mk [[1], [1]] [1, 1] 2).buf.getD 1 []).length :=
  sample_column_clamped_cell_walk_unclamped (DensityMap.mk [[1], [1]] [1, 1] 2)
    (1/2) 1 0 (by decide) (by norm_num [sample, cumWalk])

/-- C1 (counterexample): on a map whose stored column total `rows[0] = 2`
overshoots the exact column sum `1` (modelling floating-point summation
drift), the draw `r = 3/4` makes `sample` return the cell `(0, 1)` whose
row index equals the column height `1` — it is *not* clamped to the last
valid cell, refuting the claim that the returned cell always satisfies
`y < height`. -/
theorem sample_overshoot_escapes_column :
    sample (DensityMap.mk [[1]] [2] 2) (3/4) = some (0, 1) ∧
      (DensityMap.mk [[1]] [2] 2).rows.length = (DensityMap.mk [[1]] [2] 2).buf.length ∧
      ¬ (1 < ((DensityMap.mk [[1]] [2] 2).buf.getD 0 []).length) := by
  refine ⟨?_, by decide, by decide⟩
  norm_num [sample, cumWalk]

/-- C9: `sample` aborts (the model returns `none`, the program fails the
`assert!`) exactly when the drawn value lies outside `[0,1)`; for every
draw inside `[0,1)` on a nonempty density map it returns a cell. -/
theorem sample_asserts_unit_range (m : DensityMap) (r : ℚ) :
    (¬ (0 ≤ r ∧ r < 1) → sample m r = none) ∧
      (0 ≤ r → r < 1 → m.buf ≠ [] → (sample m r).isSome = true) := by
  constructor
  · intro hr
    unfold sample
    rw [if_neg hr]
  · intro h0 h1 hne
    unfold sample
    rw [if_pos ⟨h0, h1⟩]
    simp only
    by_cases hx : (cumWalk m.rows (r * m.sum)).1 = m.buf.length
    · rw [if_pos hx, if_neg (by simpa using List.length_pos.mpr hne |>.ne')]
      simp
    · rw [if_neg hx]
      simp

theorem sample_asserts_unit_range_witness :
    sample (DensityMap.mk [[1]] [1] 1) (3/2) = none ∧
      (sample (DensityMap.mk [[1]] [1] 1) (1/2)).isSome = true :=
  ⟨(sample_asserts_unit_range (DensityMap.mk [[1]] [1] 1) (3/2)).1 (by norm_num),
    (sample_asserts_unit_range (DensityMap.mk [[1]] [1] 1) (1/2)).2
      (by norm_num) (by norm_num) (by simp)⟩

/-! ## Basic lemmas about the list helpers -/

theorem getD_eq_getElem (l : List α) (i : Nat) (d : α) (h : i < l.length) :
    l.getD i d = l[i] := by
  rw [List.getD_eq_getElem?_getD, List.getElem?_eq_getElem h]
  rfl

theorem getD_map_lt (l : List α) (f : α → β) (i : Nat) (d : β) (d' : α)
    (h : i < l.length) :
    (l.map f).getD i d = f (l.getD i d') := by
  rw [List.getD_eq_getElem?_getD, List.getD_eq_getElem?_getD, List.getElem?_map,
    List.getElem?_eq_getElem h]
  rfl

theorem length_modifyIdx (f : α → α) (i : Nat) (l : List α) :
    (modifyIdx f i l).length = l.length := by
  induction l generalizing i with
  | nil => cases i <;> rfl
  | cons a t ih => cases i <;> simp [modifyIdx, ih]

theorem getD_modifyIdx_self (f : α → α) (i : Nat) (l : List α) (d : α)
    (h : i < l.length) :
    (modifyIdx f i l).getD i d = f (l.getD i d) := by
  induction l generalizing i with
  | nil => simp at h
  | cons a t ih =>
    cases i with
    | zero => rfl
    | succ n =>
      simp only [modifyIdx, List.getD_cons_succ]
      exact ih n (by simpa using h)

theorem getD_modifyIdx_ne (f : α → α) (i j : Nat) (l : List α) (d : α)
    (h : j ≠ i) :
    (modifyIdx f i l).getD j d = l.getD j d := by
  induction l generalizing i j with
  | nil => cases i <;> rfl
  | cons a t ih =>
    cases i with
    | zero =>
      cases j with
      | zero => exact absurd rfl h
      | succ m => rfl
    | succ n =>
      cases j with
      | zero => rfl
      | succ m =>
        simp only [modifyIdx, List.getD_cons_succ]
        exact ih n m (fun hmn => h (by omega))

theorem length_mapIdxFrom (f : Nat → α → β) (s : Nat) (l : List α) :
    (mapIdxFrom f s l).length = l.length := by
  induction l generalizing s with
  | nil => rfl
  | cons a t ih => simp [mapIdxFrom, ih]

theorem getD_mapIdxFrom (f : Nat → α → β) (s i : Nat) (l : List α) (d : β) (d' : α)
    (h : i < l.length) :
    (mapIdxFrom f s l).getD i d = f (s + i) (l.getD i d') := by
  induction l generalizing s i with
  | nil => simp at h
  | cons a t ih =>
    cases i with
    | zero => rfl
    | succ n =>
      simp only [mapIdxFrom, List.getD_cons_succ]
      rw [ih (s + 1) n (by simpa using h)]
      congr 1
      omega

theorem modifyIdx_out_of_range (f : α → α) (i : Nat) (l : List α)
    (h : l.length ≤ i) : modifyIdx f i l = l := by
  induction l generalizing i with
  | nil => cases i <;> rfl
  | cons a t ih =>
    cases i with
    | zero => simp at h
    | succ n => simp only [modifyIdx]; rw [ih n (by simpa using h)]

/-! ## Partial child sums and their recurrences -/

theorem childWeightSum_eq_from_zero (c : List Node) (i : Nat) :
    childWeightSum c i = childWeightSumFrom c 0 i := by
  unfold childWeightSum childWeightSumFrom
  apply Finset.sum_congr _ (fun _ _ => rfl)
  apply Finset.filter_congr
  intro j _
  simp

theorem childWeightSumFrom_top (c : List Node) (k i : Nat) (hk : c.length ≤ k) :
    childWeightSumFrom c k i = 0 := by
  unfold childWeightSumFrom
  apply Finset.sum_eq_zero
  intro j hj
  rw [Finset.mem_filter, Finset.mem_range] at hj
  omega

theorem childWeightSumFrom_succ_of_ne (c : List Node) (k i : Nat)
    (h : (c.getD k default).parent ≠ some i) :
    childWeightSumFrom c k i = childWeightSumFrom c (k + 1) i := by
  unfold childWeightSumFrom
  apply Finset.sum_congr _ (fun _ _ => rfl)
  apply Finset.filter_congr
  intro j _
  by_cases hjk : j = k
  · subst hjk
    constructor
    · rintro ⟨hp, -⟩; exact absurd hp h
    · rintro ⟨-, hj⟩; omega
  · constructor
    · rintro ⟨hp, hj⟩; exact ⟨hp, by omega⟩
    · rintro ⟨hp, hj⟩; exact ⟨hp, by omega⟩

theorem childWeightSumFrom_succ_of_eq (c : List Node) (k i : Nat)
    (hk : k < c.length) (h : (c.getD k default).parent = some i) :
    childWeightSumFrom c k i = (c.getD k default).weight + childWeightSumFrom c (k + 1) i := by
  unfold childWeightSumFrom
  have hset : (Finset.range c.length).filter
      (fun j => (c.getD j default).parent = some i ∧ k ≤ j) =
      insert k ((Finset.range c.length).filter
        (fun j => (c.getD j default).parent = some i ∧ k + 1 ≤ j)) := by
    ext j
    simp only [Finset.mem_filter, Finset.mem_range, Finset.mem_insert]
    constructor
    · rintro ⟨hjn, hp, hkj⟩
      rcases Nat.eq_or_lt_of_le hkj with hq | hq
      · exact Or.inl hq.symm
      · exact Or.inr ⟨hjn, hp, hq⟩
    · rintro (rfl | ⟨hjn, hp, hkj⟩)
      · exact ⟨hk, h, le_rfl⟩
      · exact ⟨hjn, hp, by omega⟩
  rw [hset, Finset.sum_insert (fun hmem => absurd (Finset.mem_filter.mp hmem).2.2 (by omega))]

theorem childWeightSum_eq_geLimit (c : List Node) (i k : Nat)
    (hchild : ∀ j, j < c.length → (c.getD j default).parent = some i → k ≤ j) :
    childWeightSum c i = childWeightSumFrom c k i := by
  unfold childWeightSum childWeightSumFrom
  apply Finset.sum_congr _ (fun _ _ => rfl)
  apply Finset.filter_congr
  intro j hj
  rw [Finset.mem_range] at hj
  exact ⟨fun hp => ⟨hp, hchild j hj hp⟩, fun hp => hp.1⟩

theorem childWeightSumFrom_congr (c1 c2 : List Node) (k i : Nat)
    (hlen : c1.length = c2.length)
    (hpt : ∀ j, j < c2.length →
      ((c1.getD j default).parent = (c2.getD j default).parent ∧
        ((c2.getD j default).parent = some i → k ≤ j →
          (c1.getD j default).weight = (c2.getD j default).weight))) :
    childWeightSumFrom c1 k i = childWeightSumFrom c2 k i := by
  unfold childWeightSumFrom
  rw [hlen]
  have hset : (Finset.range c2.length).filter
      (fun j => (c1.getD j default).parent = some i ∧ k ≤ j) =
      (Finset.range c2.length).filter
        (fun j => (c2.getD j default).parent = some i ∧ k ≤ j) := by
    apply Finset.filter_congr
    intro j hj
    rw [Finset.mem_range] at hj
    rw [(hpt j hj).1]
  rw [hset]
  apply Finset.sum_congr rfl
  intro j hj
  rw [Finset.mem_filter, Finset.mem_range] at hj
  exact (hpt j hj.1).2 hj.2.1 hj.2.2

/-! ## The reverse weight pass and its loop invariant -/

theorem passDown_succ (k : Nat) (ns : List Node) :
    passDown (k + 1) ns = passDown k (weightStep ns k) := by
  simp [passDown, List.range_succ]

theorem recalcNodes_eq_passDown (ns : List Node) :
    recalcNodes ns = passDown ns.length (ns.map resetWeight) := rfl

theorem resetWeight_resetWeight (nd : Node) :
    resetWeight (resetWeight nd) = resetWeight nd := rfl

theorem rinv_init (ns : List Node) : RInv ns (ns.map resetWeight) ns.length := by
  refine ⟨by simp, ?_, ?_, ?_⟩
  · intro i hi
    rw [getD_map_lt ns resetWeight i default default hi]
    exact resetWeight_resetWeight _
  · intro i hik hin
    omega
  · intro i _ hin
    rw [getD_map_lt ns resetWeight i default default hin,
      childWeightSumFrom_top _ _ _ (by simp)]
    rfl

theorem rinv_step (ns cur : List Node) (k : Nat)
    (hwf : wfParents ns) (hk : k < ns.length) (h : RInv ns cur (k + 1)) :
    RInv ns (weightStep cur k) k := by
  obtain ⟨hlen, hfields, hdone, hpart⟩ := h
  have hpar : ∀ j, j < ns.length →
      (cur.getD j default).parent = (ns.getD j default).parent := by
    intro j hj
    have h2 := congrArg Node.parent (hfields j hj)
    exact h2
  -- the children of any index `i` sit strictly above it
  have hchild : ∀ i j, j < cur.length → (cur.getD j default).parent = some i → i < j := by
    intro i j hj hp
    have hj' : j < ns.length := by omega
    exact hwf j hj' i ((hpar j hj').symm.trans hp)
  cases hPk : (cur.getD k default).parent with
  | none =>
    have hstep : weightStep cur k = cur := by
      unfold weightStep
      rw [hPk]
    rw [hstep]
    refine ⟨hlen, hfields, ?_, ?_⟩
    · intro i hki hin
      by_cases hq : i = k
      · rw [hq] at hin ⊢
        rw [hpart k (by omega) hin,
          childWeightSum_eq_geLimit cur k (k + 1) (fun j hj hp => hchild k j hj hp)]
      · exact hdone i (by omega) hin
    · intro i hik hin
      rw [hpart i (by omega) hin,
        childWeightSumFrom_succ_of_ne cur k i (by rw [hPk]; simp)]
  | some p =>
    have hp_lt : p < k := hwf k hk p ((hpar k hk).symm.trans hPk)
    have hp_len : p < cur.length := by omega
    have hstep : weightStep cur k =
        modifyIdx (fun nd => { nd with
          weight := nd.weight + (cur.getD k default).weight }) p cur := by
      unfold weightStep
      rw [hPk]
    set f := fun nd : Node => { nd with weight := nd.weight + (cur.getD k default).weight }
      with hf
    rw [hstep]
    have hlen' : (modifyIdx f p cur).length = ns.length := by
      rw [length_modifyIdx]; exact hlen
    have hget_ne : ∀ j, j ≠ p → (modifyIdx f p cur).getD j default = cur.getD j default :=
      fun j hj => getD_modifyIdx_ne f p j cur default hj
    have hget_p : (modifyIdx f p cur).getD p default = f (cur.getD p default) :=
      getD_modifyIdx_self f p cur default hp_len
    have hpar' : ∀ j, ((modifyIdx f p cur).getD j default).parent =
        (cur.getD j default).parent := by
      intro j
      by_cases hj : j = p
      · subst hj; rw [hget_p]
      · rw [hget_ne j hj]
    have hw_ne : ∀ j, j ≠ p →
        ((modifyIdx f p cur).getD j default).weight = (cur.getD j default).weight := by
      intro j hj
      rw [hget_ne j hj]
    refine ⟨hlen', ?_, ?_, ?_⟩
    · intro i hi
      by_cases hip : i = p
      · subst hip
        rw [hget_p]
        exact hfields i (by omega)
      · rw [hget_ne i hip]
        exact hfields i hi
    · intro i hki hin
      have hip : i ≠ p := by omega
      rw [hw_ne i hip]
      have hsum : childWeightSum (modifyIdx f p cur) i = childWeightSum cur i := by
        rw [childWeightSum_eq_from_zero, childWeightSum_eq_from_zero]
        apply childWeightSumFrom_congr _ _ 0 i (by rw [length_modifyIdx])
        intro j hj
        refine ⟨hpar' j, fun hp _ => ?_⟩
        have : i < j := hchild i j hj hp
        exact hw_ne j (by omega)
      rw [hsum]
      by_cases hq : i = k
      · rw [hq] at hin ⊢
        rw [hpart k (by omega) hin,
          childWeightSum_eq_geLimit cur k (k + 1) (fun j hj hp => hchild k j hj hp)]
      · exact hdone i (by omega) hin
    · intro i hik hin
      have hsum : childWeightSumFrom (modifyIdx f p cur) k i = childWeightSumFrom cur k i := by
        apply childWeightSumFrom_congr _ _ k i (by rw [length_modifyIdx])
        intro j hj
        refine ⟨hpar' j, fun _ hkj => ?_⟩
        exact hw_ne j (by omega)
      rw [hsum]
      by_cases hip : i = p
      · rw [hip] at hin ⊢
        rw [hget_p]
        show (cur.getD p default).weight + (cur.getD k default).weight
          = 1 + childWeightSumFrom cur k p
        rw [childWeightSumFrom_succ_of_eq cur k p (by omega) hPk,
          hpart p (by omega) hin]
        omega
      · rw [hget_ne i hip, hpart i (by omega) hin,
          childWeightSumFrom_succ_of_ne cur k i
            (by rw [hPk]; simp; omega)]

theorem rinv_passDown (ns : List Node) (hwf : wfParents ns) :
    ∀ k, k ≤ ns.length → ∀ cur, RInv ns cur k → RInv ns (passDown k cur) 0 := by
  intro k
  induction k with
  | zero =>
    intro _ cur h
    simpa [passDown] using h
  | succ k ih =>
    intro hk cur h
    rw [passDown_succ]
    exact ih (by omega) _ (rinv_step ns cur k hwf (by omega) h)

theorem recalcNodes_rinv (ns : List Node) (hwf : wfParents ns) :
    RInv ns (recalcNodes ns) 0 := by
  rw [recalcNodes_eq_passDown]
  exact rinv_passDown ns hwf ns.length le_rfl _ (rinv_init ns)

/-! ## Structure preservation by the weight pass -/

theorem length_weightStep (ns : List Node) (k : Nat) :
    (weightStep ns k).length = ns.length := by
  unfold weightStep
  split
  · exact length_modifyIdx _ _ _
  · rfl

theorem resetWeight_weightStep (ns : List Node) (k i : Nat) :
    resetWeight ((weightStep ns k).getD i default) = resetWeight (ns.getD i default) := by
  unfold weightStep
  split
  next p _ =>
    by_cases hip : i = p
    · subst hip
      by_cases hlt : i < ns.length
      · rw [getD_modifyIdx_self _ _ _ _ hlt]
        rfl
      · rw [modifyIdx_out_of_range _ _ _ (by omega)]
    · rw [getD_modifyIdx_ne _ _ _ _ _ hip]
  next => rfl

theorem length_passDown (k : Nat) (ns : List Node) :
    (passDown k ns).length = ns.length := by
  induction k generalizing ns with
  | zero => rfl
  | succ k ih => rw [passDown_succ, ih, length_weightStep]

theorem resetWeight_passDown (k : Nat) (ns : List Node) (i : Nat) :
    resetWeight ((passDown k ns).getD i default) = resetWeight (ns.getD i default) := by
  induction k generalizing ns with
  | zero => rfl
  | succ k ih => rw [passDown_succ, ih, resetWeight_weightStep]

theorem length_recalcNodes (ns : List Node) : (recalcNodes ns).length = ns.length := by
  rw [recalcNodes_eq_passDown, length_passDown, List.length_map]

theorem resetWeight_recalcNodes (ns : List Node) (i : Nat) :
    resetWeight ((recalcNodes ns).getD i default) = resetWeight (ns.getD i default) := by
  rw [recalcNodes_eq_passDown, resetWeight_passDown]
  by_cases hi : i < ns.length
  · rw [getD_map_lt ns resetWeight i default default hi]
    exact resetWeight_resetWeight _
  · have h1 : (ns.map resetWeight).length ≤ i := by simp; omega
    have h2 : ns.length ≤ i := by omega
    rw [List.getD_eq_default _ _ h1, List.getD_eq_default _ _ h2]

theorem parent_recalcNodes (ns : List Node) (i : Nat) :
    ((recalcNodes ns).getD i default).parent = (ns.getD i default).parent := by
  have h2 := congrArg Node.parent (resetWeight_recalcNodes ns i)
  exact h2

theorem alive_recalcNodes (ns : List Node) (i : Nat) :
    ((recalcNodes ns).getD i default).alive = (ns.getD i default).alive := by
  have h2 := congrArg Node.alive (resetWeight_recalcNodes ns i)
  exact h2

theorem pos_recalcNodes (ns : List Node) (i : Nat) :
    ((recalcNodes ns).getD i default).pos = (ns.getD i default).pos := by
  have h2 := congrArg Node.pos (resetWeight_recalcNodes ns i)
  exact h2

/-! ## Consequences of the invariant -/

theorem recalcNodes_weight_exact (ns : List Node) (hwf : wfParents ns) :
    ∀ i, i < ns.length →
      ((recalcNodes ns).getD i default).weight = 1 + childWeightSum (recalcNodes ns) i :=
  fun i hi => (recalcNodes_rinv ns hwf).2.2.1 i (Nat.zero_le i) hi

theorem recalcNodes_root_weight (ns : List Node)
    (hwf : wfParents ns) (hroot : rootedAt0 ns) (hne : ns ≠ []) :
    ((recalcNodes ns).getD 0 default).weight = ns.length := by
  have hn : (recalcNodes ns).length = ns.length := length_recalcNodes ns
  have hnpos : 0 < ns.length := List.length_pos.mpr hne
  have hpar : ∀ j, ((recalcNodes ns).getD j default).parent = (ns.getD j default).parent :=
    parent_recalcNodes ns
  set out := recalcNodes ns with hout
  have hweq : ∀ i, i < ns.length →
      (out.getD i default).weight = 1 + childWeightSum out i :=
    recalcNodes_weight_exact ns hwf
  -- total weight, counted twice
  have hstep1 : ∑ j in Finset.range ns.length, (out.getD j default).weight
      = ns.length + ∑ i in Finset.range ns.length, childWeightSum out i := by
    rw [Finset.sum_congr rfl (fun i hi => hweq i (Finset.mem_range.mp hi)),
      Finset.sum_add_distrib]
    simp
  have hfiber : ∀ i ∈ Finset.range ns.length,
      ((Finset.range ns.length).filter
          (fun j => ((out.getD j default).parent).isSome)).filter
        (fun j => ((out.getD j default).parent).getD 0 = i)
      = (Finset.range ns.length).filter (fun j => (out.getD j default).parent = some i) := by
    intro i _
    ext j
    simp only [Finset.mem_filter, Finset.mem_range, Finset.filter_filter]
    cases hpj : (out.getD j default).parent with
    | none => simp
    | some q => simp [hpj]
  have hmaps : ∀ j ∈ (Finset.range ns.length).filter
      (fun j => ((out.getD j default).parent).isSome),
      ((out.getD j default).parent).getD 0 ∈ Finset.range ns.length := by
    intro j hj
    rw [Finset.mem_filter, Finset.mem_range] at hj
    obtain ⟨hjn, hps⟩ := hj
    obtain ⟨q, hq⟩ := Option.isSome_iff_exists.mp hps
    have hq' : (ns.getD j default).parent = some q := (hpar j).symm.trans hq
    have := hwf j hjn q hq'
    rw [Finset.mem_range, hq]
    simp only [Option.getD_some]
    omega
  have hstep2 : ∑ i in Finset.range ns.length, childWeightSum out i
      = ∑ j in (Finset.range ns.length).filter
          (fun j => ((out.getD j default).parent).isSome), (out.getD j default).weight := by
    have hfib := Finset.sum_fiberwise_of_maps_to hmaps (fun j => (out.getD j default).weight)
    rw [← hfib]
    apply Finset.sum_congr rfl
    intro i hi
    unfold childWeightSum
    rw [hn]
    exact Finset.sum_congr (hfiber i hi).symm (fun _ _ => rfl)
  have hset : (Finset.range ns.length).filter
      (fun j => ((out.getD j default).parent).isSome) = (Finset.range ns.length).erase 0 := by
    ext j
    simp only [Finset.mem_filter, Finset.mem_range, Finset.mem_erase]
    constructor
    · rintro ⟨hjn, hps⟩
      refine ⟨?_, hjn⟩
      intro hj0
      subst hj0
      have h0 : (ns.getD 0 default).parent = none := (hroot 0 hnpos).mpr rfl
      rw [hpar 0, h0] at hps
      simp at hps
    · rintro ⟨hj0, hjn⟩
      refine ⟨hjn, ?_⟩
      rw [hpar j]
      cases hpj : (ns.getD j default).parent with
      | none => exact absurd ((hroot j hjn).mp hpj) hj0
      | some q => rfl
  have hstep3 : ∑ j in (Finset.range ns.length).erase 0, (out.getD j default).weight
      + (out.getD 0 default).weight
      = ∑ j in Finset.range ns.length, (out.getD j default).weight :=
    Finset.sum_erase_add _ _ (Finset.mem_range.mpr hnpos)
  rw [hset] at hstep2
  omega

theorem recalcNodes_weight_le_root (ns : List Node)
    (hwf : wfParents ns) (hroot : rootedAt0 ns) :
    ∀ i, i < ns.length →
      ((recalcNodes ns).getD i default).weight ≤ ((recalcNodes ns).getD 0 default).weight := by
  have hn : (recalcNodes ns).length = ns.length := length_recalcNodes ns
  have hpar : ∀ j, ((recalcNodes ns).getD j default).parent = (ns.getD j default).parent :=
    parent_recalcNodes ns
  intro i
  induction i using Nat.strong_induction_on with
  | _ i ih =>
    intro hi
    rcases Nat.eq_zero_or_pos i with rfl | hipos
    · exact le_rfl
    · have hsome : (ns.getD i default).parent ≠ none := by
        intro h0
        have := (hroot i hi).mp h0
        omega
      cases hpj : (ns.getD i default).parent with
      | none => exact absurd hpj hsome
      | some p =>
        have hp_lt : p < i := hwf i hi p hpj
        have hstep : ((recalcNodes ns).getD i default).weight ≤
            ((recalcNodes ns).getD p default).weight := by
          rw [recalcNodes_weight_exact ns hwf p (by omega)]
          have hmem : i ∈ (Finset.range (recalcNodes ns).length).filter
              (fun j => (((recalcNodes ns).getD j default).parent = some p)) := by
            rw [Finset.mem_filter, Finset.mem_range, hn, hpar i]
            exact ⟨hi, hpj⟩
          have hle := Finset.single_le_sum
            (f := fun j => (((recalcNodes ns).getD j default).weight))
            (fun _ _ => Nat.zero_le _) hmem
          simp only at hle
          unfold childWeightSum
          omega
        exact le_trans hstep (ih p hp_lt (by omega))

/-- C2: after every call to `recalculate_weight` on a well-formed arena,
every node's weight equals 1 plus the sum of the weights of its direct
children (dead children counted exactly like alive ones); consequently
every weight is at least 1, and the root's weight equals the total node
count, alive plus dead. -/
theorem recalculate_weight_exact (t : Tree)
    (hwf : wfParents t.nodes) (hroot : rootedAt0 t.nodes) (hne : t.nodes ≠ []) :
    (∀ i, i < (Tree.recalculate_weight t).nodes.length →
      ((Tree.recalculate_weight t).nodes.getD i default).weight =
        1 + childWeightSum (Tree.recalculate_weight t).nodes i) ∧
    (∀ i, i < (Tree.recalculate_weight t).nodes.length →
      1 ≤ ((Tree.recalculate_weight t).nodes.getD i default).weight) ∧
    ((Tree.recalculate_weight t).nodes.getD 0 default).weight =
      (Tree.recalculate_weight t).nodes.length := by
  have hnodes : (Tree.recalculate_weight t).nodes = recalcNodes t.nodes := rfl
  rw [hnodes, length_recalcNodes]
  refine ⟨fun i hi => recalcNodes_weight_exact t.nodes hwf i hi, ?_, ?_⟩
  · intro i hi
    rw [recalcNodes_weight_exact t.nodes hwf i hi]
    omega
  · exact recalcNodes_root_weight t.nodes hwf hroot hne

/-! ## Vector facts -/

theorem lensq_sub_comm (a b : V2) : (V2.sub a b).lensq = (V2.sub b a).lensq := by
  simp only [V2.sub, V2.lensq]
  ring

/-! ## The death-mark application -/

theorem length_killMarked (marks : List Nat) (ns : List Node) :
    (killMarked marks ns).length = ns.length := length_mapIdxFrom _ _ _

theorem getD_killMarked (marks : List Nat) (ns : List Node) (i : Nat) (hi : i < ns.length) :
    (killMarked marks ns).getD i default =
      (if i ∈ marks then { ns.getD i default with alive := false }
        else ns.getD i default) := by
  unfold killMarked
  rw [getD_mapIdxFrom _ 0 i ns default default hi]
  simp

theorem pos_killMarked (marks : List Nat) (ns : List Node) (i : Nat) (hi : i < ns.length) :
    ((killMarked marks ns).getD i default).pos = (ns.getD i default).pos := by
  rw [getD_killMarked marks ns i hi]
  split <;> rfl

theorem parent_killMarked (marks : List Nat) (ns : List Node) (i : Nat) (hi : i < ns.length) :
    ((killMarked marks ns).getD i default).parent = (ns.getD i default).parent := by
  rw [getD_killMarked marks ns i hi]
  split <;> rfl

theorem weight_killMarked (marks : List Nat) (ns : List Node) (i : Nat) (hi : i < ns.length) :
    ((killMarked marks ns).getD i default).weight = (ns.getD i default).weight := by
  rw [getD_killMarked marks ns i hi]
  split <;> rfl

theorem alive_killMarked_eq (marks : List Nat) (ns : List Node) (i : Nat) (hi : i < ns.length) :
    ((killMarked marks ns).getD i default).alive =
      (if i ∈ marks then false else (ns.getD i default).alive) := by
  rw [getD_killMarked marks ns i hi]
  split <;> rfl

/-! ## The acceptance loop: case analysis and invariants -/

theorem acceptStep_cases (cfg : Config) (st : List Node × Bool) (c : Node) :
    acceptStep cfg st c = st ∨
    ∃ p, c.parent = some p ∧
      st.1.any (fun nod => decide ((V2.sub nod.pos c.pos).lensq <
        cfg.node_min_dist * cfg.node_min_dist)) = false ∧
      acceptStep cfg st c =
        (modifyIdx (fun nd => { nd with child_count := nd.child_count + 1 }) p st.1 ++ [c],
          true) := by
  unfold acceptStep
  split
  next => exact Or.inl rfl
  next p hp =>
    split_ifs with h1 h2
    · exact Or.inl rfl
    · exact Or.inl rfl
    · exact Or.inr ⟨p, hp, by simpa using h2, rfl⟩

theorem acceptStep_length_mono (cfg : Config) (st : List Node × Bool) (c : Node) :
    st.1.length ≤ (acceptStep cfg st c).1.length := by
  rcases acceptStep_cases cfg st c with h | ⟨p, _, _, h⟩
  · rw [h]
  · rw [h]
    simp [length_modifyIdx]

theorem acceptFold_length_mono (cfg : Config) (cands : List Node) :
    ∀ st : List Node × Bool, st.1.length ≤ (cands.foldl (acceptStep cfg) st).1.length := by
  induction cands with
  | nil => intro st; exact le_rfl
  | cons c rest ih =>
    intro st
    rw [List.foldl_cons]
    exact le_trans (acceptStep_length_mono cfg st c) (ih _)

theorem acceptStep_prefix (cfg : Config) (st : List Node × Bool) (c : Node) (i : Nat)
    (hi : i < st.1.length) :
    stripCC ((acceptStep cfg st c).1.getD i default) = stripCC (st.1.getD i default) := by
  rcases acceptStep_cases cfg st c with h | ⟨p, _, _, h⟩
  · rw [h]
  · rw [h]
    simp only
    rw [List.getD_append _ _ _ _ (by rw [length_modifyIdx]; exact hi)]
    by_cases hip : i = p
    · subst hip
      rw [getD_modifyIdx_self _ _ _ _ hi]
      rfl
    · rw [getD_modifyIdx_ne _ _ _ _ _ hip]

theorem acceptFold_prefix (cfg : Config) (cands : List Node) :
    ∀ (st : List Node × Bool) (i : Nat), i < st.1.length →
    stripCC ((cands.foldl (acceptStep cfg) st).1.getD i default) =
      stripCC (st.1.getD i default) := by
  induction cands with
  | nil => intro st i hi; rfl
  | cons c rest ih =>
    intro st i hi
    rw [List.foldl_cons, ih _ i (lt_of_lt_of_le hi (acceptStep_length_mono cfg st c)),
      acceptStep_prefix cfg st c i hi]

theorem acceptStep_stable (cfg : Config) (st : List Node × Bool) (c : Node) (k n₀ : Nat)
    (hc : ∀ p, c.parent = some p → p < n₀)
    (hk : n₀ ≤ k) (hklen : k < st.1.length) :
    (acceptStep cfg st c).1.getD k default = st.1.getD k default := by
  rcases acceptStep_cases cfg st c with h | ⟨p, hp, _, h⟩
  · rw [h]
  · rw [h]
    simp only
    rw [List.getD_append _ _ _ _ (by rw [length_modifyIdx]; exact hklen),
      getD_modifyIdx_ne _ _ _ _ _ (by have := hc p hp; omega)]

theorem acceptFold_stable (cfg : Config) (cands : List Node) (n₀ : Nat)
    (hc : ∀ c ∈ cands, ∀ p, c.parent = some p → p < n₀) :
    ∀ (st : List Node × Bool) (k : Nat), n₀ ≤ k → k < st.1.length →
    (cands.foldl (acceptStep cfg) st).1.getD k default = st.1.getD k default := by
  induction cands with
  | nil => intro st k _ _; rfl
  | cons c rest ih =>
    intro st k hk hklen
    rw [List.foldl_cons,
      ih (fun c' hc' => hc c' (List.mem_cons_of_mem _ hc')) _ k hk
        (lt_of_lt_of_le hklen (acceptStep_length_mono cfg st c)),
      acceptStep_stable cfg st c k n₀ (hc c (List.mem_cons_self _ _)) hk hklen]

theorem acceptFold_suffix_mem (cfg : Config) (cands : List Node) (n₀ : Nat)
    (hc : ∀ c ∈ cands, ∀ p, c.parent = some p → p < n₀) :
    ∀ st : List Node × Bool, n₀ ≤ st.1.length → ∀ k, st.1.length ≤ k →
      k < (cands.foldl (acceptStep cfg) st).1.length →
      (cands.foldl (acceptStep cfg) st).1.getD k default ∈ cands := by
  induction cands with
  | nil =>
    intro st _ k hk hk'
    simp only [List.foldl_nil] at hk'
    omega
  | cons c rest ih =>
    intro st hn k hk hk'
    rw [List.foldl_cons] at hk' ⊢
    rcases acceptStep_cases cfg st c with h | ⟨p, hp, _, h⟩
    · rw [h] at hk' ⊢
      exact List.mem_cons_of_mem _
        (ih (fun c' hc' => hc c' (List.mem_cons_of_mem _ hc')) st hn k hk hk')
    · rw [h] at hk' ⊢
      by_cases hkk : k = st.1.length
      · subst hkk
        rw [acceptFold_stable cfg rest n₀
          (fun c' hc' => hc c' (List.mem_cons_of_mem _ hc')) _ _ (by omega)
          (by simp [length_modifyIdx])]
        rw [List.getD_append_right _ _ _ _ (by rw [length_modifyIdx])]
        simp [length_modifyIdx]
      · refine List.mem_cons_of_mem _
          (ih (fun c' hc' => hc c' (List.mem_cons_of_mem _ hc')) _ ?_ k ?_ hk')
        · simp only [length_modifyIdx]
          simp [length_modifyIdx]
          omega
        · simp [length_modifyIdx]
          omega

theorem acceptFold_flag_mono (cfg : Config) (cands : List Node) :
    ∀ st : List Node × Bool, st.2 = true → (cands.foldl (acceptStep cfg) st).2 = true := by
  induction cands with
  | nil => intro st h; exact h
  | cons c rest ih =>
    intro st h
    rw [List.foldl_cons]
    apply ih
    rcases acceptStep_cases cfg st c with hcase | ⟨p, _, _, hcase⟩
    · rw [hcase]; exact h
    · rw [hcase]

theorem acceptFold_flag_false (cfg : Config) (cands : List Node) :
    ∀ st : List Node × Bool, (cands.foldl (acceptStep cfg) st).2 = false →
    cands.foldl (acceptStep cfg) st = st := by
  induction cands with
  | nil => intro st _; rfl
  | cons c rest ih =>
    intro st hfl
    rw [List.foldl_cons] at hfl ⊢
    rcases acceptStep_cases cfg st c with hcase | ⟨p, _, _, hcase⟩
    · rw [hcase] at hfl ⊢
      exact ih st hfl
    · exfalso
      have htrue : (rest.foldl (acceptStep cfg) (acceptStep cfg st c)).2 = true := by
        apply acceptFold_flag_mono
        rw [hcase]
      rw [htrue] at hfl
      cases hfl

theorem acceptFold_flag_growth (cfg : Config) (cands : List Node) :
    ∀ st : List Node × Bool, st.2 = false →
    (cands.foldl (acceptStep cfg) st).2 = true →
    st.1.length < (cands.foldl (acceptStep cfg) st).1.length := by
  induction cands with
  | nil =>
    intro st h h'
    rw [List.foldl_nil] at h'
    rw [h] at h'
    cases h'
  | cons c rest ih =>
    intro st h h'
    rw [List.foldl_cons] at h' ⊢
    rcases acceptStep_cases cfg st c with hcase | ⟨p, _, _, hcase⟩
    · rw [hcase] at h' ⊢
      exact ih st h h'
    · rw [hcase] at h' ⊢
      calc st.1.length < st.1.length + 1 := by omega
        _ = (modifyIdx (fun nd => { nd with child_count := nd.child_count + 1 })
              p st.1 ++ [c], true).1.length := by simp [length_modifyIdx]
        _ ≤ _ := acceptFold_length_mono cfg rest _

theorem acceptStep_spaced (cfg : Config) (n₀ : Nat) (st : List Node × Bool) (c : Node)
    (hsp : Spaced cfg n₀ st.1) :
    Spaced cfg n₀ (acceptStep cfg st c).1 := by
  rcases acceptStep_cases cfg st c with h | ⟨p, hp, hany, h⟩
  · rw [h]; exact hsp
  · rw [h]
    simp only
    intro k hk hklen j hjlen hjk
    have hlen : (modifyIdx (fun nd => { nd with child_count := nd.child_count + 1 })
        p st.1 ++ [c]).length = st.1.length + 1 := by simp [length_modifyIdx]
    have hpos : ∀ m, m < st.1.length →
        ((modifyIdx (fun nd => { nd with child_count := nd.child_count + 1 })
          p st.1 ++ [c]).getD m default).pos = (st.1.getD m default).pos := by
      intro m hm
      rw [List.getD_append _ _ _ _ (by rw [length_modifyIdx]; exact hm)]
      by_cases hmp : m = p
      · subst hmp
        rw [getD_modifyIdx_self _ _ _ _ hm]
      · rw [getD_modifyIdx_ne _ _ _ _ _ hmp]
    have hposC : ((modifyIdx (fun nd => { nd with child_count := nd.child_count + 1 })
        p st.1 ++ [c]).getD st.1.length default).pos = c.pos := by
      rw [List.getD_append_right _ _ _ _ (by rw [length_modifyIdx])]
      simp [length_modifyIdx]
    have hfar : ∀ m, m < st.1.length →
        cfg.node_min_dist * cfg.node_min_dist ≤
          (V2.sub (st.1.getD m default).pos c.pos).lensq := by
      intro m hm
      have hmem : st.1.getD m default ∈ st.1 := by
        rw [getD_eq_getElem _ _ _ hm]
        exact List.getElem_mem hm
      have h2 := List.any_eq_false.mp hany _ hmem
      simp only [decide_eq_true_eq] at h2
      exact not_lt.mp h2
    rw [hlen] at hklen hjlen
    by_cases hkc : k = st.1.length
    · subst hkc
      have hjlt : j < st.1.length := by omega
      rw [hpos j hjlt, hposC, lensq_sub_comm]
      exact hfar j hjlt
    · have hklt : k < st.1.length := by omega
      by_cases hjc : j = st.1.length
      · subst hjc
        rw [hpos k hklt, hposC]
        exact hfar k hklt
      · have hjlt : j < st.1.length := by omega
        rw [hpos k hklt, hpos j hjlt]
        exact hsp k hk hklt j hjlt hjk

theorem acceptFold_spaced (cfg : Config) (cands : List Node) (n₀ : Nat) :
    ∀ st : List Node × Bool, Spaced cfg n₀ st.1 →
    Spaced cfg n₀ (cands.foldl (acceptStep cfg) st).1 := by
  induction cands with
  | nil => intro st h; exact h
  | cons c rest ih =>
    intro st h
    rw [List.foldl_cons]
    exact ih _ (acceptStep_spaced cfg n₀ st c h)

/-! ## Death-mark bookkeeping of `prune` -/

theorem transWalk_subset (idx : Nat) (chain : List Nat) (marks : List Nat) (x : Nat)
    (hx : x ∈ marks) : x ∈ transWalk idx marks chain := by
  induction chain generalizing marks with
  | nil => exact hx
  | cons a rest ih =>
    simp only [transWalk]
    apply ih
    split
    · exact List.mem_append_left _ hx
    · exact hx

theorem transWalk_mem (idx : Nat) (chain : List Nat) (marks : List Nat) (x : Nat)
    (hx : x ∈ transWalk idx marks chain) : x ∈ marks ∨ x = idx := by
  induction chain generalizing marks with
  | nil => exact Or.inl hx
  | cons a rest ih =>
    simp only [transWalk] at hx
    rcases ih _ hx with h | h
    · revert h
      split
      · intro h
        rcases List.mem_append.mp h with h | h
        · exact Or.inl h
        · simp only [List.mem_singleton] at h
          exact Or.inr h
      · intro h
        exact Or.inl h
    · exact Or.inr h

theorem transWalk_pushes (idx : Nat) (chain : List Nat) (marks : List Nat)
    (h : ∃ a ∈ chain, a ∈ marks) : idx ∈ transWalk idx marks chain := by
  induction chain generalizing marks with
  | nil =>
    obtain ⟨a, ha, -⟩ := h
    cases ha
  | cons b rest ih =>
    obtain ⟨a, ha, ham⟩ := h
    simp only [transWalk]
    rcases List.mem_cons.mp ha with rfl | ha'
    · rw [if_pos ham]
      exact transWalk_subset _ _ _ _ (List.mem_append_right _ (by simp))
    · split
      · exact ih _ ⟨a, ha', List.mem_append_left _ ham⟩
      · exact ih _ ⟨a, ha', ham⟩

theorem pruneMarksUpTo_mono (env : Env) (cfg : Config) (ns : List Node) (k x : Nat)
    (hx : x ∈ pruneMarksUpTo env cfg ns k) : x ∈ pruneMarksUpTo env cfg ns (k + 1) := by
  simp only [pruneMarksUpTo]
  apply transWalk_subset
  split
  · exact List.mem_append_left _ hx
  · exact hx

theorem pruneMarksUpTo_mono_le (env : Env) (cfg : Config) (ns : List Node) {k₁ k₂ : Nat}
    (h : k₁ ≤ k₂) (x : Nat) (hx : x ∈ pruneMarksUpTo env cfg ns k₁) :
    x ∈ pruneMarksUpTo env cfg ns k₂ := by
  induction k₂ with
  | zero =>
    have hk : k₁ = 0 := by omega
    subst hk
    exact hx
  | succ n ih =>
    by_cases hk : k₁ = n + 1
    · subst hk
      exact hx
    · exact pruneMarksUpTo_mono env cfg ns n x (ih (by omega))

theorem pruneMarksUpTo_lt (env : Env) (cfg : Config) (ns : List Node) (k x : Nat)
    (hx : x ∈ pruneMarksUpTo env cfg ns k) : x < k := by
  induction k with
  | zero => cases hx
  | succ n ih =>
    simp only [pruneMarksUpTo] at hx
    rcases transWalk_mem _ _ _ _ hx with h | h
    · revert h
      split
      · intro h
        rcases List.mem_append.mp h with h | h
        · have := ih h
          omega
        · simp only [List.mem_singleton] at h
          omega
      · intro h
        have := ih h
        omega
    · omega

theorem pruneMarksUpTo_stable (env : Env) (cfg : Config) (ns : List Node) (k₁ : Nat) :
    ∀ k₂ x, k₁ ≤ k₂ → x < k₁ → x ∈ pruneMarksUpTo env cfg ns k₂ →
      x ∈ pruneMarksUpTo env cfg ns k₁ := by
  intro k₂
  induction k₂ with
  | zero =>
    intro x _ _ hx
    cases hx
  | succ n ih =>
    intro x hk hlt hx
    by_cases hk2 : k₁ = n + 1
    · subst hk2
      exact hx
    · apply ih x (by omega) hlt
      simp only [pruneMarksUpTo] at hx
      rcases transWalk_mem _ _ _ _ hx with h | h
      · revert h
        split
        · intro h
          rcases List.mem_append.mp h with h | h
          · exact h
          · simp only [List.mem_singleton] at h
            omega
        · intro h
          exact h
      · omega

theorem pruneMarks_mem_lt (env : Env) (cfg : Config) (ns : List Node) (x : Nat)
    (hx : x ∈ pruneMarks env cfg ns) : x < ns.length :=
  pruneMarksUpTo_lt env cfg ns ns.length x hx

theorem ancChainAux_mem_lt (ns : List Node) (hwf : wfParents ns) :
    ∀ (fuel : Nat) (o : Option Nat) (bound : Nat), bound ≤ ns.length →
      (∀ a, o = some a → a < bound) →
      ∀ x ∈ ancChainAux ns fuel o, x < bound := by
  intro fuel
  induction fuel with
  | zero =>
    intro o bound _ _ x hx
    cases o <;> simp [ancChainAux] at hx
  | succ n ih =>
    intro o bound hb ho x hx
    cases o with
    | none => simp [ancChainAux] at hx
    | some a =>
      simp only [ancChainAux] at hx
      rcases List.mem_cons.mp hx with rfl | hx'
      · exact ho x rfl
      · have ha : a < bound := ho a rfl
        exact lt_trans
          (ih ((ns.getD a default).parent) a (by omega)
            (fun q hq => hwf a (by omega) q hq) x hx') ha

theorem ancChain_mem_lt (ns : List Node) (hwf : wfParents ns) (j : Nat) (hj : j < ns.length) :
    ∀ x ∈ ancChain ns (ns.getD j default), x < j := by
  unfold ancChain
  exact ancChainAux_mem_lt ns hwf ns.length ((ns.getD j default).parent) j (by omega)
    (fun a ha => hwf j hj a ha)

theorem parent_mem_ancChain (ns : List Node) (j p : Nat)
    (hne : ns ≠ []) (hp : (ns.getD j default).parent = some p) :
    p ∈ ancChain ns (ns.getD j default) := by
  unfold ancChain
  rw [hp]
  cases hlen : ns.length with
  | zero => exact absurd (List.length_eq_zero.mp hlen) hne
  | succ n => simp [ancChainAux]

theorem pruneMarks_closed (env : Env) (cfg : Config) (ns : List Node)
    (hwf : wfParents ns) (j p : Nat)
    (hj : j < ns.length) (hp : (ns.getD j default).parent = some p)
    (hpm : p ∈ pruneMarks env cfg ns) : j ∈ pruneMarks env cfg ns := by
  have hplt : p < j := hwf j hj p hp
  have hne : ns ≠ [] := by
    intro h
    subst h
    simp at hj
  have hp_at_j : p ∈ pruneMarksUpTo env cfg ns j :=
    pruneMarksUpTo_stable env cfg ns j ns.length p (by omega) (by omega) hpm
  have hj_push : j ∈ pruneMarksUpTo env cfg ns (j + 1) := by
    simp only [pruneMarksUpTo]
    apply transWalk_pushes
    refine ⟨p, parent_mem_ancChain ns j p hne hp, ?_⟩
    split
    · exact List.mem_append_left _ hp_at_j
    · exact hp_at_j
  exact pruneMarksUpTo_mono_le env cfg ns (by omega) j hj_push

theorem pruneMarks_zero_direct (env : Env) (cfg : Config) (ns : List Node)
    (hroot : (ns.getD 0 default).parent = none)
    (h0 : 0 ∈ pruneMarks env cfg ns) :
    directMark env cfg ns (ns.getD 0 default) = true := by
  have hpos : 0 < ns.length := pruneMarks_mem_lt env cfg ns 0 h0
  have h1 : 0 ∈ pruneMarksUpTo env cfg ns 1 :=
    pruneMarksUpTo_stable env cfg ns 1 ns.length 0 (by omega) (by omega) h0
  have hchain : ancChain ns (ns.getD 0 default) = [] := by
    unfold ancChain
    rw [hroot]
    cases ns.length <;> rfl
  simp only [pruneMarksUpTo, hchain, transWalk] at h1
  revert h1
  split
  next hdir => intro _; exact hdir
  next => intro h1; cases h1

/-! ## `Tree::prune` at the tree level -/

theorem prune_nodes (env : Env) (t : Tree) :
    (Tree.prune env t).nodes = killMarked (pruneMarks env t.config t.nodes) t.nodes := rfl

theorem prune_length (env : Env) (t : Tree) :
    (Tree.prune env t).nodes.length = t.nodes.length := length_killMarked _ _

theorem prune_alive_eq (env : Env) (t : Tree) (i : Nat) (hi : i < t.nodes.length) :
    ((Tree.prune env t).nodes.getD i default).alive =
      (if i ∈ pruneMarks env t.config t.nodes then false
        else (t.nodes.getD i default).alive) :=
  alive_killMarked_eq _ _ i hi

theorem prune_preserves_closedDead (env : Env) (t : Tree)
    (hwf : wfParents t.nodes) (hcl : closedDead t.nodes) :
    closedDead (Tree.prune env t).nodes := by
  intro j hj p hp hpd
  rw [prune_length] at hj
  have hp' : (t.nodes.getD j default).parent = some p := by
    rw [prune_nodes] at hp
    rw [← parent_killMarked _ _ j hj]
    exact hp
  have hplt : p < j := hwf j hj p hp'
  rw [prune_alive_eq env t j hj]
  by_cases hjm : j ∈ pruneMarks env t.config t.nodes
  · rw [if_pos hjm]
  · rw [if_neg hjm]
    by_cases hpm : p ∈ pruneMarks env t.config t.nodes
    · exact absurd (pruneMarks_closed env t.config t.nodes hwf j p hj hp' hpm) hjm
    · rw [prune_alive_eq env t p (by omega), if_neg hpm] at hpd
      exact hcl j hj p hp' hpd

/-! ## `Tree::sim` decomposition -/

theorem sim_not_growing (env : Env) (t : Tree) (hg : t.growing = false) :
    Tree.sim env t = t := by
  unfold Tree.sim
  rw [if_pos hg]

theorem sim_growing (env : Env) (t : Tree) (hg : t.growing = true) :
    Tree.sim env t = Tree.recalculate_weight (Tree.prune env
      { t with
        nodes := ((newNodes env t).foldl (acceptStep t.config) (t.nodes, false)).1,
        points := consumePoints t.config t.nodes t.points,
        growing := t.growing &&
          ((newNodes env t).foldl (acceptStep t.config) (t.nodes, false)).2 }) := by
  unfold Tree.sim
  rw [if_neg (by rw [hg]; simp)]

theorem recalc_nodes (t : Tree) :
    (Tree.recalculate_weight t).nodes = recalcNodes t.nodes := rfl

theorem sim_config (env : Env) (t : Tree) : (Tree.sim env t).config = t.config := by
  cases hg : t.growing
  · rw [sim_not_growing env t hg]
  · rw [sim_growing env t hg]
    rfl

theorem sim_nodes_growing (env : Env) (t : Tree) (hg : t.growing = true) :
    (Tree.sim env t).nodes =
      recalcNodes (killMarked
        (pruneMarks env t.config
          ((newNodes env t).foldl (acceptStep t.config) (t.nodes, false)).1)
        ((newNodes env t).foldl (acceptStep t.config) (t.nodes, false)).1) := by
  rw [sim_growing env t hg]
  rfl

theorem sim_length_growing (env : Env) (t : Tree) (hg : t.growing = true) :
    (Tree.sim env t).nodes.length =
      ((newNodes env t).foldl (acceptStep t.config) (t.nodes, false)).1.length := by
  rw [sim_nodes_growing env t hg, length_recalcNodes, length_killMarked]

theorem sim_length_mono (env : Env) (t : Tree) :
    t.nodes.length ≤ (Tree.sim env t).nodes.length := by
  cases hg : t.growing
  · rw [sim_not_growing env t hg]
  · rw [sim_length_growing env t hg]
    exact acceptFold_length_mono t.config (newNodes env t) (t.nodes, false)

theorem sim_pos (env : Env) (t : Tree) (i : Nat) (hi : i < t.nodes.length) :
    ((Tree.sim env t).nodes.getD i default).pos = (t.nodes.getD i default).pos := by
  cases hg : t.growing
  · rw [sim_not_growing env t hg]
  · rw [sim_nodes_growing env t hg]
    have hi' : i < ((newNodes env t).foldl (acceptStep t.config) (t.nodes, false)).1.length :=
      lt_of_lt_of_le hi (acceptFold_length_mono t.config (newNodes env t) (t.nodes, false))
    rw [pos_recalcNodes, pos_killMarked _ _ i hi']
    have h3 := acceptFold_prefix t.config (newNodes env t) (t.nodes, false) i hi
    have h4 := congrArg Node.pos h3
    exact h4

theorem sim_parent (env : Env) (t : Tree) (i : Nat) (hi : i < t.nodes.length) :
    ((Tree.sim env t).nodes.getD i default).parent = (t.nodes.getD i default).parent := by
  cases hg : t.growing
  · rw [sim_not_growing env t hg]
  · rw [sim_nodes_growing env t hg]
    have hi' : i < ((newNodes env t).foldl (acceptStep t.config) (t.nodes, false)).1.length :=
      lt_of_lt_of_le hi (acceptFold_length_mono t.config (newNodes env t) (t.nodes, false))
    rw [parent_recalcNodes, parent_killMarked _ _ i hi']
    have h3 := acceptFold_prefix t.config (newNodes env t) (t.nodes, false) i hi
    have h4 := congrArg Node.parent h3
    exact h4

theorem sim_alive_false (env : Env) (t : Tree) (i : Nat) (hi : i < t.nodes.length)
    (hdead : (t.nodes.getD i default).alive = false) :
    ((Tree.sim env t).nodes.getD i default).alive = false := by
  cases hg : t.growing
  · rw [sim_not_growing env t hg]
    exact hdead
  · rw [sim_nodes_growing env t hg]
    have hi' : i < ((newNodes env t).foldl (acceptStep t.config) (t.nodes, false)).1.length :=
      lt_of_lt_of_le hi (acceptFold_length_mono t.config (newNodes env t) (t.nodes, false))
    rw [alive_recalcNodes, alive_killMarked_eq _ _ i hi']
    have h3 := acceptFold_prefix t.config (newNodes env t) (t.nodes, false) i hi
    have h4 := congrArg Node.alive h3
    split
    · rfl
    · exact h4.trans hdead

theorem prune_alive_false (env : Env) (t : Tree) (i : Nat) (hi : i < t.nodes.length)
    (hdead : (t.nodes.getD i default).alive = false) :
    ((Tree.prune env t).nodes.getD i default).alive = false := by
  rw [prune_alive_eq env t i hi]
  split
  · rfl
  · exact hdead

theorem recalc_alive (t : Tree) (i : Nat) :
    ((Tree.recalculate_weight t).nodes.getD i default).alive =
      (t.nodes.getD i default).alive := by
  rw [recalc_nodes]
  exact alive_recalcNodes t.nodes i

theorem applyOp_length_mono (t : Tree) (op : Op) :
    t.nodes.length ≤ (applyOp t op).nodes.length := by
  cases op with
  | sim env => exact sim_length_mono env t
  | prune env => exact le_of_eq (prune_length env t).symm
  | recalc =>
    show t.nodes.length ≤ (Tree.recalculate_weight t).nodes.length
    rw [recalc_nodes, length_recalcNodes]

theorem applyOp_alive_false (t : Tree) (op : Op) (i : Nat) (hi : i < t.nodes.length)
    (hdead : (t.nodes.getD i default).alive = false) :
    ((applyOp t op).nodes.getD i default).alive = false := by
  cases op with
  | sim env => exact sim_alive_false env t i hi hdead
  | prune env => exact prune_alive_false env t i hi hdead
  | recalc =>
    show ((Tree.recalculate_weight t).nodes.getD i default).alive = false
    rw [recalc_alive]
    exact hdead

/-- C5: over any sequence of `sim` / `prune` / `recalculate_weight`
calls, a node's `alive` flag only ever moves from `true` to `false`:
once dead, it stays dead forever. -/
theorem alive_monotone (ops : List Op) (t : Tree) (i : Nat)
    (hi : i < t.nodes.length)
    (hdead : (t.nodes.getD i default).alive = false) :
    ((ops.foldl applyOp t).nodes.getD i default).alive = false := by
  induction ops generalizing t with
  | nil => exact hdead
  | cons op rest ih =>
    rw [List.foldl_cons]
    exact ih (applyOp t op) (lt_of_lt_of_le hi (applyOp_length_mono t op))
      (applyOp_alive_false t op i hi hdead)

theorem alive_monotone_witness :
    ((([Op.sim env0, Op.prune env0, Op.recalc].foldl applyOp
      treeW).nodes.getD 2 default).alive = false) :=
  alive_monotone [Op.sim env0, Op.prune env0, Op.recalc] treeW 2
    (by simp [treeW, nodesW]) (by rfl)

/-- C8: a growth cycle that accepts zero proposals (the arena size does
not change) turns the `growing` flag off, and once the flag is off every
subsequent call to `sim` leaves the entire tree — nodes, points, config
and flag — completely unchanged. -/
theorem sim_stagnation (env : Env) (t : Tree) :
    ((Tree.sim env t).nodes.length = t.nodes.length → (Tree.sim env t).growing = false) ∧
    (t.growing = false → ∀ envs : List Env, simSeq t envs = t) := by
  constructor
  · intro hlen
    cases hg : t.growing
    · rw [sim_not_growing env t hg]
      exact hg
    · rw [sim_length_growing env t hg] at hlen
      have hgrow : (Tree.sim env t).growing =
          (t.growing && ((newNodes env t).foldl (acceptStep t.config) (t.nodes, false)).2) := by
        rw [sim_growing env t hg]
        rfl
      rw [hgrow, hg, Bool.true_and]
      cases hfl : ((newNodes env t).foldl (acceptStep t.config) (t.nodes, false)).2
      · rfl
      · exfalso
        have hlt := acceptFold_flag_growth t.config (newNodes env t) (t.nodes, false) rfl hfl
        simp only at hlt
        omega
  · intro hg envs
    induction envs with
    | nil => rfl
    | cons e rest ih =>
      show (e :: rest).foldl (fun acc e => Tree.sim e acc) t = t
      rw [List.foldl_cons, sim_not_growing e t hg]
      exact ih

theorem sim_stagnation_witness :
    simSeq { treeW with growing := false } [env0] = { treeW with growing := false } :=
  (sim_stagnation env0 { treeW with growing := false }).2 rfl [env0]

/-- C3: every node appended during a single growth cycle ends the cycle
at squared distance at least `node_min_dist²` from every other node of
the resulting arena — including nodes accepted earlier in the same
cycle; only pairs that both predate the cycle can be closer. -/
theorem sim_spacing (env : Env) (t : Tree) (k : Nat)
    (hk : t.nodes.length ≤ k) (hk' : k < (Tree.sim env t).nodes.length)
    (j : Nat) (hj : j < (Tree.sim env t).nodes.length) (hjk : j ≠ k) :
    t.config.node_min_dist * t.config.node_min_dist ≤
      (V2.sub ((Tree.sim env t).nodes.getD k default).pos
        ((Tree.sim env t).nodes.getD j default).pos).lensq := by
  cases hg : t.growing
  · rw [sim_not_growing env t hg] at hk'
    omega
  · have hsp := acceptFold_spaced t.config (newNodes env t) t.nodes.length (t.nodes, false)
      (fun k hk1 hk2 => by simp only at hk2; omega)
    rw [sim_nodes_growing env t hg] at hk' hj ⊢
    rw [length_recalcNodes, length_killMarked] at hk' hj
    rw [pos_recalcNodes, pos_recalcNodes, pos_killMarked _ _ k hk', pos_killMarked _ _ j hj]
    exact hsp k hk hk' j hj hjk

/-! ## Concrete evaluation of one growth cycle -/

theorem range_one : List.range 1 = [0] := rfl

theorem range_two : List.range 2 = [0, 1] := rfl

theorem tree0_nodes : tree0.nodes = [root0] := by
  norm_num [tree0, Tree.new, Node.new_root, cfg0, root0]

theorem newNodes_tree0 : newNodes env0 tree0 = [candR] := by
  rw [newNodes, tree0_nodes]
  norm_num [tree0, Tree.new, cfg0, env0, propose, nearPts, prevDir,
    V2.normalized, V2.smul, V2.add, V2.sub, V2.lensq, V2.lerp, V2.zero,
    Node.new_branch, root0, candR, range_one, min_def, max_def,
    List.filterMap_cons, List.filterMap_nil]

/-! ## Pruning is inert when the size fraction is not positive -/

theorem transWalk_nil_marks (idx : Nat) (chain : List Nat) :
    transWalk idx [] chain = [] := by
  induction chain with
  | nil => rfl
  | cons a rest ih =>
    simp only [transWalk, List.not_mem_nil, if_neg]
    exact ih

theorem directMark_frac_nonpos (env : Env) (cfg : Config) (ns : List Node) (nd : Node)
    (h : cfg.prune_size_frac ≤ 0) : directMark env cfg ns nd = false := by
  unfold directMark
  simp only [List.any_eq_false]
  intro conflict _
  have h1 : cfg.prune_size_frac * (conflict.weight : ℚ) ≤ 0 := by
    calc cfg.prune_size_frac * (conflict.weight : ℚ)
        ≤ 0 * (conflict.weight : ℚ) :=
          mul_le_mul_of_nonneg_right h (Nat.cast_nonneg _)
      _ = 0 := by ring
  have h2 : ¬((nd.weight : ℚ) < cfg.prune_size_frac * (conflict.weight : ℚ)) :=
    not_lt.mpr (le_trans h1 (Nat.cast_nonneg _))
  simp [h2]

theorem pruneMarksUpTo_no_direct (env : Env) (cfg : Config) (ns : List Node)
    (h : ∀ nd, directMark env cfg ns nd = false) :
    ∀ k, pruneMarksUpTo env cfg ns k = [] := by
  intro k
  induction k with
  | zero => rfl
  | succ n ih =>
    simp only [pruneMarksUpTo, ih, h, Bool.false_eq_true, if_neg]
    exact transWalk_nil_marks _ _

theorem pruneMarks_frac_nonpos (env : Env) (cfg : Config) (ns : List Node)
    (h : cfg.prune_size_frac ≤ 0) : pruneMarks env cfg ns = [] :=
  pruneMarksUpTo_no_direct env cfg ns
    (fun nd => directMark_frac_nonpos env cfg ns nd h) ns.length

theorem mapIdxFrom_id (f : Nat → α → α) (hf : ∀ i a, f i a = a) :
    ∀ (s : Nat) (l : List α), mapIdxFrom f s l = l := by
  intro s l
  induction l generalizing s with
  | nil => rfl
  | cons a t ih => simp only [mapIdxFrom, hf, ih]

theorem killMarked_nil (ns : List Node) : killMarked [] ns = ns :=
  mapIdxFrom_id _ (fun i a => by simp) 0 ns

/-! ## The remaining stages of the concrete cycle -/

theorem acceptStep_tree0 :
    acceptStep cfg0 ([root0], false) candR =
      ([{ root0 with child_count := 1 }, candR], true) := by
  norm_num [acceptStep, candR, root0, cfg0, modifyIdx, V2.sub, V2.lensq]

theorem recalc_tree1 :
    recalcNodes [{ root0 with child_count := 1 }, candR] =
      [{ root0 with child_count := 1, weight := 2 }, candR] := by
  norm_num [recalcNodes, resetWeight, weightStep, modifyIdx, root0, candR, range_two]

theorem tree0_config : tree0.config = cfg0 := rfl

theorem tree0_points : tree0.points = [⟨253, 54⟩] := rfl

theorem tree0_growing : tree0.growing = true := rfl

theorem consume_tree0 : consumePoints cfg0 [root0] [⟨253, 54⟩] = [⟨253, 54⟩] := by
  norm_num [consumePoints, cfg0, root0, V2.sub, V2.lensq]

theorem sim_tree0_eval : Tree.sim env0 tree0 = treeR := by
  rw [sim_growing env0 tree0 rfl, newNodes_tree0, tree0_nodes, tree0_config, tree0_points,
    tree0_growing, List.foldl_cons, List.foldl_nil, acceptStep_tree0, consume_tree0]
  show Tree.recalculate_weight (Tree.prune env0
    { nodes := [{ root0 with child_count := 1 }, candR], config := cfg0,
      points := [⟨253, 54⟩], growing := true }) = treeR
  rw [show Tree.prune env0
      { nodes := [{ root0 with child_count := 1 }, candR], config := cfg0,
        points := [⟨253, 54⟩], growing := true } =
      { nodes := killMarked (pruneMarks env0 cfg0 [{ root0 with child_count := 1 }, candR])
          [{ root0 with child_count := 1 }, candR], config := cfg0,
        points := [⟨253, 54⟩], growing := true } from rfl,
    pruneMarks_frac_nonpos env0 cfg0 _ (by norm_num [cfg0]), killMarked_nil]
  show Tree.mk (recalcNodes [{ root0 with child_count := 1 }, candR]) cfg0
      [⟨253, 54⟩] true = treeR
  rw [recalc_tree1]
  rfl

/-! ## Anatomy of a proposal -/

theorem depth_recalcNodes (ns : List Node) (i : Nat) :
    ((recalcNodes ns).getD i default).depth = (ns.getD i default).depth := by
  have h2 := congrArg Node.depth (resetWeight_recalcNodes ns i)
  exact h2

theorem depth_killMarked (marks : List Nat) (ns : List Node) (i : Nat) (hi : i < ns.length) :
    ((killMarked marks ns).getD i default).depth = (ns.getD i default).depth := by
  rw [getD_killMarked marks ns i hi]
  split <;> rfl

theorem propose_spec (env : Env) (cfg : Config) (ns : List Node) (pts : List V2)
    (i : Nat) (nd c : Node) (h : propose env cfg ns pts i nd = some c) :
    c.pos = V2.add nd.pos
      (V2.lerp
        ((V2.normalized env ((nearPts cfg pts nd.pos).foldl V2.add V2.zero)).smul cfg.grow_dist)
        (prevDir cfg ns nd) cfg.parent_dir_factor) ∧
    c.parent = some i ∧ c.depth = nd.depth + 1 ∧ c.alive = true ∧
    c.child_count = 0 ∧ c.weight = 1 ∧ nd.alive = true ∧
    nd.child_count < cfg.max_children := by
  simp only [propose] at h
  split_ifs at h with h1 h2
  rw [Option.some.injEq] at h
  subst h
  push_neg at h1
  obtain ⟨h1a, h1b⟩ := h1
  refine ⟨rfl, rfl, rfl, rfl, rfl, rfl, ?_, by omega⟩
  revert h1b
  cases nd.alive <;> simp [Node.new_branch]

theorem newNodes_mem_spec (env : Env) (t : Tree) (c : Node) (hc : c ∈ newNodes env t) :
    ∃ i, i < t.nodes.length ∧
      propose env t.config t.nodes t.points i (t.nodes.getD i default) = some c := by
  unfold newNodes at hc
  rw [List.mem_filterMap] at hc
  obtain ⟨i, hi, hp⟩ := hc
  exact ⟨i, List.mem_range.mp hi, hp⟩

theorem newNodes_parent_lt (env : Env) (t : Tree) :
    ∀ c ∈ newNodes env t, ∀ p, c.parent = some p → p < t.nodes.length := by
  intro c hc p hp
  obtain ⟨i, hi, hprop⟩ := newNodes_mem_spec env t c hc
  have hspec := propose_spec env t.config t.nodes t.points i _ c hprop
  rw [hspec.2.1, Option.some.injEq] at hp
  omega

/-- C4 (amended): every node appended by a growth cycle is placed at
exactly `parent.pos + lerp(avg_dir, prev_dir, parent_dir_factor)` — the
blended delta of the source, with `avg_dir` the `grow_dist`-scaled
normalized attraction sum and `prev_dir` the offset from the parent's
own parent — at depth `parent.depth + 1`.  The distance to the parent is
the length of that blended delta, which in general differs from
`grow_dist` (see the counterexample): the claim of an exact `grow_dist`
spacing holds only in special cases such as `prev_dir = avg_dir`. -/
theorem sim_new_node_placement (env : Env) (t : Tree) (k : Nat)
    (hk : t.nodes.length ≤ k) (hk' : k < (Tree.sim env t).nodes.length) :
    ∃ p, p < t.nodes.length ∧
      ((Tree.sim env t).nodes.getD k default).parent = some p ∧
      ((Tree.sim env t).nodes.getD k default).pos =
        V2.add (t.nodes.getD p default).pos
          (V2.lerp
            ((V2.normalized env
              ((nearPts t.config t.points
                (t.nodes.getD p default).pos).foldl V2.add V2.zero)).smul
              t.config.grow_dist)
            (prevDir t.config t.nodes (t.nodes.getD p default))
            t.config.parent_dir_factor) ∧
      ((Tree.sim env t).nodes.getD k default).depth =
        (t.nodes.getD p default).depth + 1 := by
  cases hg : t.growing
  · rw [sim_not_growing env t hg] at hk'
    omega
  · rw [sim_nodes_growing env t hg] at hk' ⊢
    rw [length_recalcNodes, length_killMarked] at hk'
    have hmem := acceptFold_suffix_mem t.config (newNodes env t) t.nodes.length
      (fun c hc p hp => newNodes_parent_lt env t c hc p hp) (t.nodes, false)
      (le_refl _) k hk hk'
    obtain ⟨i, hi, hprop⟩ := newNodes_mem_spec env t _ hmem
    have hspec := propose_spec env t.config t.nodes t.points i _ _ hprop
    refine ⟨i, hi, ?_, ?_, ?_⟩
    · rw [parent_recalcNodes, parent_killMarked _ _ k hk']
      exact hspec.2.1
    · rw [pos_recalcNodes, pos_killMarked _ _ k hk']
      exact hspec.1
    · rw [depth_recalcNodes, depth_killMarked _ _ k hk']
      exact hspec.2.2.1

theorem sim_new_node_placement_witness :
    ∃ p, p < tree0.nodes.length ∧
      ((Tree.sim env0 tree0).nodes.getD 1 default).parent = some p ∧
      ((Tree.sim env0 tree0).nodes.getD 1 default).pos =
        V2.add (tree0.nodes.getD p default).pos
          (V2.lerp
            ((V2.normalized env0
              ((nearPts tree0.config tree0.points
                (tree0.nodes.getD p default).pos).foldl V2.add V2.zero)).smul
              tree0.config.grow_dist)
            (prevDir tree0.config tree0.nodes (tree0.nodes.getD p default))
            tree0.config.parent_dir_factor) ∧
      ((Tree.sim env0 tree0).nodes.getD 1 default).depth =
        (tree0.nodes.getD p default).depth + 1 :=
  sim_new_node_placement env0 tree0 1 (by simp [tree0_nodes])
    (by rw [sim_tree0_eval]; simp [treeR])

/-- C4 (counterexample): a concrete accepted proposal whose distance
from its parent is not `grow_dist`.  One cycle on `tree0` accepts a
child at `(503/2, 109/2)` whose parent (the root) sits at `(250, 50)`;
the squared distance is `45/2`, while `grow_dist² = 25` — the blended
delta `lerp((3,4),(0,5),1/2)` is strictly shorter than the growth-step
length, refuting the claim that children are placed at exactly
`grow_dist` from their parent. -/
theorem sim_child_not_at_grow_dist :
    Tree.sim env0 tree0 = treeR ∧
    (treeR.nodes.getD 1 default).parent = some 0 ∧
    (V2.sub ((treeR.nodes.getD 1 default).pos)
      ((treeR.nodes.getD 0 default).pos)).lensq ≠
      cfg0.grow_dist * cfg0.grow_dist := by
  refine ⟨sim_tree0_eval, by norm_num [treeR, candR, root0], ?_⟩
  norm_num [treeR, candR, root0, cfg0, V2.sub, V2.lensq]

theorem sim_spacing_witness :
    tree0.config.node_min_dist * tree0.config.node_min_dist ≤
      (V2.sub ((Tree.sim env0 tree0).nodes.getD 1 default).pos
        ((Tree.sim env0 tree0).nodes.getD 0 default).pos).lensq :=
  sim_spacing env0 tree0 1 (by simp [tree0_nodes])
    (by rw [sim_tree0_eval]; simp [treeR]) 0
    (by rw [sim_tree0_eval]; simp [treeR]) (by decide)

/-! ## Transfer of structural invariants along field-preserving maps -/

theorem wfParents_transfer (ns1 ns2 : List Node)
    (hlen : ns2.length = ns1.length)
    (hpar : ∀ i, i < ns1.length →
      (ns2.getD i default).parent = (ns1.getD i default).parent)
    (h : wfParents ns1) : wfParents ns2 := by
  intro j hj p hp
  rw [hlen] at hj
  rw [hpar j hj] at hp
  exact h j hj p hp

theorem rootedAt0_transfer (ns1 ns2 : List Node)
    (hlen : ns2.length = ns1.length)
    (hpar : ∀ i, i < ns1.length →
      (ns2.getD i default).parent = (ns1.getD i default).parent)
    (h : rootedAt0 ns1) : rootedAt0 ns2 := by
  intro j hj
  rw [hlen] at hj
  rw [hpar j hj]
  exact h j hj

theorem closedDead_transfer (ns1 ns2 : List Node)
    (hlen : ns2.length = ns1.length)
    (hwf : wfParents ns1)
    (hpar : ∀ i, i < ns1.length →
      (ns2.getD i default).parent = (ns1.getD i default).parent)
    (hal : ∀ i, i < ns1.length →
      (ns2.getD i default).alive = (ns1.getD i default).alive)
    (h : closedDead ns1) : closedDead ns2 := by
  intro j hj p hp hpd
  rw [hlen] at hj
  rw [hpar j hj] at hp
  have hpj : p < j := hwf j hj p hp
  rw [hal j hj]
  rw [hal p (by omega)] at hpd
  exact h j hj p hp hpd

/-! ## Structural invariants across the acceptance loop -/

theorem acceptFold_wfParents (env : Env) (t : Tree) (hwf : wfParents t.nodes) :
    wfParents ((newNodes env t).foldl (acceptStep t.config) (t.nodes, false)).1 := by
  intro j hj p hp
  by_cases hjn : j < t.nodes.length
  · have h3 := acceptFold_prefix t.config (newNodes env t) (t.nodes, false) j hjn
    have h4' := congrArg Node.parent h3
    have h4 : (((newNodes env t).foldl (acceptStep t.config) (t.nodes, false)).1.getD
        j default).parent = (t.nodes.getD j default).parent := h4'
    rw [h4] at hp
    exact hwf j hjn p hp
  · have hmem := acceptFold_suffix_mem t.config (newNodes env t) t.nodes.length
      (fun c hc q hq => newNodes_parent_lt env t c hc q hq) (t.nodes, false)
      (le_refl _) j (Nat.le_of_not_lt hjn) hj
    obtain ⟨i, hi, hprop⟩ := newNodes_mem_spec env t _ hmem
    have hspec := propose_spec env t.config t.nodes t.points i _ _ hprop
    rw [hspec.2.1, Option.some.injEq] at hp
    omega

theorem acceptFold_rootedAt0 (env : Env) (t : Tree)
    (hne : t.nodes ≠ []) (hroot : rootedAt0 t.nodes) :
    rootedAt0 ((newNodes env t).foldl (acceptStep t.config) (t.nodes, false)).1 := by
  have hn₀ : 0 < t.nodes.length := List.length_pos.mpr hne
  intro j hj
  by_cases hjn : j < t.nodes.length
  · have h3 := acceptFold_prefix t.config (newNodes env t) (t.nodes, false) j hjn
    have h4' := congrArg Node.parent h3
    have h4 : (((newNodes env t).foldl (acceptStep t.config) (t.nodes, false)).1.getD
        j default).parent = (t.nodes.getD j default).parent := h4'
    rw [h4]
    exact hroot j hjn
  · have hmem := acceptFold_suffix_mem t.config (newNodes env t) t.nodes.length
      (fun c hc q hq => newNodes_parent_lt env t c hc q hq) (t.nodes, false)
      (le_refl _) j (Nat.le_of_not_lt hjn) hj
    obtain ⟨i, hi, hprop⟩ := newNodes_mem_spec env t _ hmem
    have hspec := propose_spec env t.config t.nodes t.points i _ _ hprop
    rw [hspec.2.1]
    constructor
    · intro hx
      cases hx
    · intro hx
      subst hx
      exact absurd hn₀ hjn

/-! ## A growth cycle preserves the arena's structure -/

theorem sim_preserves_wf (env : Env) (t : Tree) (h : wfTree t) :
    wfTree (Tree.sim env t) := by
  obtain ⟨hne, hroot, hwf⟩ := h
  cases hg : t.growing
  · rw [sim_not_growing env t hg]
    exact ⟨hne, hroot, hwf⟩
  · have hn₀ : 0 < t.nodes.length := List.length_pos.mpr hne
    have hfoldlen : t.nodes.length ≤
        ((newNodes env t).foldl (acceptStep t.config) (t.nodes, false)).1.length :=
      acceptFold_length_mono t.config (newNodes env t) (t.nodes, false)
    have hklen : ∀ i, i < ((newNodes env t).foldl (acceptStep t.config)
        (t.nodes, false)).1.length →
        ((killMarked (pruneMarks env t.config
            ((newNodes env t).foldl (acceptStep t.config) (t.nodes, false)).1)
          ((newNodes env t).foldl (acceptStep t.config) (t.nodes, false)).1).getD
            i default).parent =
        (((newNodes env t).foldl (acceptStep t.config) (t.nodes, false)).1.getD
          i default).parent :=
      fun i hi => parent_killMarked _ _ i hi
    refine ⟨?_, ?_, ?_⟩
    · intro hnil
      have hlen := sim_length_mono env t
      have h0 : (Tree.sim env t).nodes.length = 0 := by
        rw [hnil]
        rfl
      omega
    · rw [sim_nodes_growing env t hg]
      apply rootedAt0_transfer _ _ (length_recalcNodes _) (fun i _ => parent_recalcNodes _ i)
      apply rootedAt0_transfer _ _ (length_killMarked _ _) hklen
      exact acceptFold_rootedAt0 env t hne hroot
    · rw [sim_nodes_growing env t hg]
      apply wfParents_transfer _ _ (length_recalcNodes _) (fun i _ => parent_recalcNodes _ i)
      apply wfParents_transfer _ _ (length_killMarked _ _) hklen
      exact acceptFold_wfParents env t hwf

theorem wf_new (config : Config) (points : List V2) :
    wfTree (Tree.new config points) := by
  refine ⟨by simp [Tree.new], ?_, ?_⟩
  · intro j hj
    have hj0 : j = 0 := by
      simp [Tree.new] at hj
      omega
    subst hj0
    simp [Tree.new, Node.new_root]
  · intro j hj p hp
    have hj0 : j = 0 := by
      simp [Tree.new] at hj
      omega
    subst hj0
    simp [Tree.new, Node.new_root] at hp

theorem simSeq_preserves_wf (envs : List Env) :
    ∀ t : Tree, wfTree t → wfTree (simSeq t envs) := by
  induction envs with
  | nil => intro t h; exact h
  | cons e rest ih =>
    intro t h
    show wfTree ((e :: rest).foldl (fun acc e => Tree.sim e acc) t)
    rw [List.foldl_cons]
    exact ih _ (sim_preserves_wf e t h)

/-- C6: in every tree reachable by growth cycles from a fresh `Tree::new`,
exactly the node at index 0 is parentless, every other node's parent
index is strictly smaller than its own index, and the arena is
append-only: a further cycle only ever extends the node list, never
moving an existing node's position or parent link. -/
theorem arena_structure (config : Config) (points : List V2) (envs : List Env) :
    (∀ j, j < (grown config points envs).nodes.length →
      (((grown config points envs).nodes.getD j default).parent = none ↔ j = 0)) ∧
    (∀ j, j < (grown config points envs).nodes.length →
      ∀ p, ((grown config points envs).nodes.getD j default).parent = some p → p < j) ∧
    (∀ env, (grown config points envs).nodes.length ≤
        (Tree.sim env (grown config points envs)).nodes.length ∧
      ∀ i, i < (grown config points envs).nodes.length →
        ((Tree.sim env (grown config points envs)).nodes.getD i default).pos =
          ((grown config points envs).nodes.getD i default).pos ∧
        ((Tree.sim env (grown config points envs)).nodes.getD i default).parent =
          ((grown config points envs).nodes.getD i default).parent) := by
  have hwf := simSeq_preserves_wf envs (Tree.new config points) (wf_new config points)
  exact ⟨hwf.2.1, hwf.2.2,
    fun env => ⟨sim_length_mono env _,
      fun i hi => ⟨sim_pos env _ i hi, sim_parent env _ i hi⟩⟩⟩

theorem arena_structure_witness :
    (((grown cfg0 [⟨253, 54⟩] [env0]).nodes.getD 0 default).parent = none ↔ (0 : Nat) = 0) ∧
      (0 : Nat) < 1 := by
  have hg : grown cfg0 [⟨253, 54⟩] [env0] = treeR := sim_tree0_eval
  refine ⟨(arena_structure cfg0 [⟨253, 54⟩] [env0]).1 0 ?_,
    (arena_structure cfg0 [⟨253, 54⟩] [env0]).2.1 1 ?_ 0 ?_⟩
  · rw [hg]
    simp [treeR]
  · rw [hg]
    simp [treeR]
  · rw [hg]
    norm_num [treeR, candR]

/-! ## Downward closure of the dead set (C7) -/

theorem acceptFold_closedDead (env : Env) (t : Tree)
    (hwf : wfParents t.nodes) (hcl : closedDead t.nodes) :
    closedDead ((newNodes env t).foldl (acceptStep t.config) (t.nodes, false)).1 := by
  intro j hj p hp hpd
  by_cases hjn : j < t.nodes.length
  · have h3 := acceptFold_prefix t.config (newNodes env t) (t.nodes, false) j hjn
    have h4' := congrArg Node.parent h3
    have h4 : (((newNodes env t).foldl (acceptStep t.config) (t.nodes, false)).1.getD
        j default).parent = (t.nodes.getD j default).parent := h4'
    rw [h4] at hp
    have hpj : p < j := hwf j hjn p hp
    have h5 := acceptFold_prefix t.config (newNodes env t) (t.nodes, false) p
      (show p < t.nodes.length by omega)
    have h5' := congrArg Node.alive h5
    have h5a : (((newNodes env t).foldl (acceptStep t.config) (t.nodes, false)).1.getD
        p default).alive = (t.nodes.getD p default).alive := h5'
    have h6' := congrArg Node.alive h3
    have h6 : (((newNodes env t).foldl (acceptStep t.config) (t.nodes, false)).1.getD
        j default).alive = (t.nodes.getD j default).alive := h6'
    rw [h6]
    rw [h5a] at hpd
    exact hcl j hjn p hp hpd
  · have hmem := acceptFold_suffix_mem t.config (newNodes env t) t.nodes.length
      (fun c hc q hq => newNodes_parent_lt env t c hc q hq) (t.nodes, false)
      (le_refl _) j (Nat.le_of_not_lt hjn) hj
    obtain ⟨i, hi, hprop⟩ := newNodes_mem_spec env t _ hmem
    have hspec := propose_spec env t.config t.nodes t.points i _ _ hprop
    rw [hspec.2.1, Option.some.injEq] at hp
    subst hp
    have h5 := acceptFold_prefix t.config (newNodes env t) (t.nodes, false) i hi
    have h5' := congrArg Node.alive h5
    have h5a : (((newNodes env t).foldl (acceptStep t.config) (t.nodes, false)).1.getD
        i default).alive = (t.nodes.getD i default).alive := h5'
    rw [h5a, hspec.2.2.2.2.2.2.1] at hpd
    exact Bool.noConfusion hpd

theorem sim_preserves_closedDead (env : Env) (t : Tree)
    (h : wfTree t) (hcl : closedDead t.nodes) :
    closedDead (Tree.sim env t).nodes := by
  obtain ⟨hne, hroot, hwf⟩ := h
  cases hg : t.growing
  · rw [sim_not_growing env t hg]
    exact hcl
  · rw [sim_nodes_growing env t hg]
    have hwf1 := acceptFold_wfParents env t hwf
    have hcl1 := acceptFold_closedDead env t hwf hcl
    have hcl2 : closedDead (killMarked (pruneMarks env t.config
        ((newNodes env t).foldl (acceptStep t.config) (t.nodes, false)).1)
        ((newNodes env t).foldl (acceptStep t.config) (t.nodes, false)).1) := by
      have hprune := prune_preserves_closedDead env
        { t with
          nodes := ((newNodes env t).foldl (acceptStep t.config) (t.nodes, false)).1,
          points := consumePoints t.config t.nodes t.points,
          growing := t.growing &&
            ((newNodes env t).foldl (acceptStep t.config) (t.nodes, false)).2 }
        hwf1 hcl1
      exact hprune
    have hwf2 : wfParents (killMarked (pruneMarks env t.config
        ((newNodes env t).foldl (acceptStep t.config) (t.nodes, false)).1)
        ((newNodes env t).foldl (acceptStep t.config) (t.nodes, false)).1) :=
      wfParents_transfer _ _ (length_killMarked _ _)
        (fun i hi => parent_killMarked _ _ i hi) hwf1
    exact closedDead_transfer _ _ (length_recalcNodes _) hwf2
      (fun i _ => parent_recalcNodes _ i) (fun i _ => alive_recalcNodes _ i) hcl2

theorem closedDead_new (config : Config) (points : List V2) :
    closedDead (Tree.new config points).nodes := by
  intro j hj p hp
  have hj0 : j = 0 := by
    simp [Tree.new] at hj
    omega
  subst hj0
  simp [Tree.new, Node.new_root] at hp

theorem simSeq_preserves_closedDead (envs : List Env) :
    ∀ t : Tree, wfTree t → closedDead t.nodes → closedDead (simSeq t envs).nodes := by
  induction envs with
  | nil => intro t _ h; exact h
  | cons e rest ih =>
    intro t hwf hcl
    show closedDead ((e :: rest).foldl (fun acc e => Tree.sim e acc) t).nodes
    rw [List.foldl_cons]
    exact ih _ (sim_preserves_wf e t hwf) (sim_preserves_closedDead e t hwf hcl)

/-- C7: in every tree reachable by growth cycles (each of which ends with
a `prune` pass), the dead set is downward closed — a node whose parent
(hence, inductively, any ancestor) is dead is itself dead; moreover a
single `prune` call on any arena with strictly-decreasing parent indices
preserves that closure, because its transitive walk re-marks the whole
downstream subtree of every directly marked node in the same pass. -/
theorem dead_set_downward_closed (config : Config) (points : List V2) (envs : List Env) :
    closedDead (grown config points envs).nodes ∧
    ∀ (env : Env) (t : Tree), wfParents t.nodes → closedDead t.nodes →
      closedDead (Tree.prune env t).nodes :=
  ⟨simSeq_preserves_closedDead envs _ (wf_new config points) (closedDead_new config points),
    fun env t hwf hcl => prune_preserves_closedDead env t hwf hcl⟩

theorem dead_set_downward_closed_witness :
    closedDead (Tree.prune env0 treeW).nodes := by
  apply (dead_set_downward_closed cfg0 [] []).2 env0 treeW
  · intro j hj p hp
    have hj3 : j < 3 := by simpa [treeW, nodesW] using hj
    interval_cases j
    · simp [treeW, nodesW, Node.new_root] at hp
    · simp [treeW, nodesW] at hp
      omega
    · simp [treeW, nodesW] at hp
      omega
  · intro j hj p hp hpd
    have hj3 : j < 3 := by simpa [treeW, nodesW] using hj
    interval_cases j
    · simp [treeW, nodesW, Node.new_root] at hp
    · simp [treeW, nodesW] at hp
      subst hp
      simp [treeW, nodesW, Node.new_root] at hpd
    · simp [treeW, nodesW] at hp
      subst hp
      simp [treeW, nodesW] at hpd

/-! ## The root survives pruning (C10) -/

theorem rootSound_new (config : Config) (points : List V2) :
    rootSound (Tree.new config points) := by
  refine ⟨rfl, le_refl 1, ?_⟩
  intro i hi
  have hi0 : i = 0 := by
    simp [Tree.new] at hi
    omega
  subst hi0
  exact le_refl _

theorem sim_preserves_rootSound (env : Env) (t : Tree)
    (hfrac : t.config.prune_size_frac ≤ 1)
    (hwft : wfTree t) (hrs : rootSound t) :
    rootSound (Tree.sim env t) := by
  obtain ⟨hne, hroot, hwf⟩ := hwft
  obtain ⟨halive, hw1, hmax⟩ := hrs
  have hn₀ : 0 < t.nodes.length := List.length_pos.mpr hne
  cases hg : t.growing
  · rw [sim_not_growing env t hg]
    exact ⟨halive, hw1, hmax⟩
  · set ns1 := ((newNodes env t).foldl (acceptStep t.config) (t.nodes, false)).1 with hns1
    have hlen1 : t.nodes.length ≤ ns1.length :=
      acceptFold_length_mono t.config (newNodes env t) (t.nodes, false)
    have h00 := acceptFold_prefix t.config (newNodes env t) (t.nodes, false) 0 hn₀
    have hw0' := congrArg Node.weight h00
    have hw0 : (ns1.getD 0 default).weight = (t.nodes.getD 0 default).weight := hw0'
    have hal0' := congrArg Node.alive h00
    have hal0 : (ns1.getD 0 default).alive = (t.nodes.getD 0 default).alive := hal0'
    have hpar0' := congrArg Node.parent h00
    have hpar0 : (ns1.getD 0 default).parent = (t.nodes.getD 0 default).parent := hpar0'
    have hmax1 : ∀ i, i < ns1.length →
        (ns1.getD i default).weight ≤ (ns1.getD 0 default).weight := by
      intro i hi
      rw [hw0]
      by_cases hin : i < t.nodes.length
      · have h3 := acceptFold_prefix t.config (newNodes env t) (t.nodes, false) i hin
        have h4' := congrArg Node.weight h3
        have h4 : (ns1.getD i default).weight = (t.nodes.getD i default).weight := h4'
        rw [h4]
        exact hmax i hin
      · have hmem := acceptFold_suffix_mem t.config (newNodes env t) t.nodes.length
          (fun c hc q hq => newNodes_parent_lt env t c hc q hq) (t.nodes, false)
          (le_refl _) i (Nat.le_of_not_lt hin) hi
        obtain ⟨k, hk, hprop⟩ := newNodes_mem_spec env t _ hmem
        have hspec := propose_spec env t.config t.nodes t.points k _ _ hprop
        have hwi : (ns1.getD i default).weight = 1 := hspec.2.2.2.2.2.1
        rw [hwi]
        exact hw1
    set marks := pruneMarks env t.config ns1 with hmarks
    have h0notmark : 0 ∉ marks := by
      intro h0
      have hroot1 : (ns1.getD 0 default).parent = none := by
        rw [hpar0]
        exact (hroot 0 hn₀).mpr rfl
      have hdir := pruneMarks_zero_direct env t.config ns1 hroot1 h0
      unfold directMark at hdir
      rw [List.any_eq_true] at hdir
      obtain ⟨conflict, hcmem, hcond⟩ := hdir
      rw [Bool.and_eq_true, decide_eq_true_eq, decide_eq_true_eq] at hcond
      obtain ⟨hc1, -⟩ := hcond
      obtain ⟨ci, hci, hcieq⟩ := List.mem_iff_getElem.mp hcmem
      have hwc : conflict.weight ≤ (ns1.getD 0 default).weight := by
        rw [← hcieq, ← getD_eq_getElem _ ci default hci]
        exact hmax1 ci hci
      have hle1 : t.config.prune_size_frac * (conflict.weight : ℚ) ≤
          (conflict.weight : ℚ) := by
        calc t.config.prune_size_frac * (conflict.weight : ℚ)
            ≤ 1 * (conflict.weight : ℚ) :=
              mul_le_mul_of_nonneg_right hfrac (Nat.cast_nonneg _)
          _ = (conflict.weight : ℚ) := one_mul _
      have hcast : (conflict.weight : ℚ) ≤ ((ns1.getD 0 default).weight : ℚ) :=
        Nat.cast_le.mpr hwc
      linarith
    have hwf1 : wfParents ns1 := acceptFold_wfParents env t hwf
    have hroot1a : rootedAt0 ns1 := acceptFold_rootedAt0 env t hne hroot
    set ns2 := killMarked marks ns1 with hns2
    have hlen2 : ns2.length = ns1.length := length_killMarked _ _
    have hwf2 : wfParents ns2 :=
      wfParents_transfer ns1 ns2 hlen2 (fun i hi => parent_killMarked _ _ i hi) hwf1
    have hroot2 : rootedAt0 ns2 :=
      rootedAt0_transfer ns1 ns2 hlen2 (fun i hi => parent_killMarked _ _ i hi) hroot1a
    have hne2 : ns2 ≠ [] := by
      intro hx
      rw [hx] at hlen2
      simp only [List.length_nil] at hlen2
      omega
    have hnodes : (Tree.sim env t).nodes = recalcNodes ns2 := by
      rw [sim_nodes_growing env t hg]
    refine ⟨?_, ?_, ?_⟩
    · rw [hnodes, alive_recalcNodes, hns2,
        alive_killMarked_eq marks ns1 0 (by omega), if_neg h0notmark, hal0]
      exact halive
    · rw [hnodes, recalcNodes_weight_exact ns2 hwf2 0 (by omega)]
      omega
    · intro i hi
      rw [hnodes] at hi ⊢
      rw [length_recalcNodes] at hi
      exact recalcNodes_weight_le_root ns2 hwf2 hroot2 i hi

theorem simSeq_rootSound (envs : List Env) :
    ∀ t : Tree, t.config.prune_size_frac ≤ 1 → wfTree t → rootSound t →
      rootSound (simSeq t envs) := by
  induction envs with
  | nil => intro t _ _ h; exact h
  | cons e rest ih =>
    intro t hfrac hwf hrs
    show rootSound ((e :: rest).foldl (fun acc e => Tree.sim e acc) t)
    rw [List.foldl_cons]
    refine ih _ ?_ (sim_preserves_wf e t hwf) (sim_preserves_rootSound e t hfrac hwf hrs)
    rw [sim_config]
    exact hfrac

/-- C10: when `prune_size_ratio ≤ 1`, the root node stays alive in every
reachable tree state — after each weight recomputation the root's weight
is maximal over the arena, so the direct pruning test can never select
the root, and having no ancestors it is never marked transitively. -/
theorem root_stays_alive (config : Config) (points : List V2) (envs : List Env)
    (hfrac : config.prune_size_frac ≤ 1) :
    ((grown config points envs).nodes.getD 0 default).alive = true :=
  (simSeq_rootSound envs (Tree.new config points) hfrac
    (wf_new config points) (rootSound_new config points)).1

theorem root_stays_alive_witness :
    ((grown cfg0 [⟨253, 54⟩] [env0]).nodes.getD 0 default).alive = true :=
  root_stays_alive cfg0 [⟨253, 54⟩] [env0] (by norm_num [cfg0])

theorem recalculate_weight_exact_witness :
    ((Tree.recalculate_weight treeW).nodes.getD 0 default).weight =
      (Tree.recalculate_weight treeW).nodes.length := by
  apply (recalculate_weight_exact treeW ?_ ?_ ?_).2.2
  · intro j hj p hp
    have hj3 : j < 3 := by simpa [treeW, nodesW] using hj
    interval_cases j
    · simp [treeW, nodesW, Node.new_root] at hp
    · simp [treeW, nodesW] at hp
      omega
    · simp [treeW, nodesW] at hp
      omega
  · intro j hj
    have hj3 : j < 3 := by simpa [treeW, nodesW] using hj
    interval_cases j
    · simp [treeW, nodesW, Node.new_root]
    · simp [treeW, nodesW]
    · simp [treeW, nodesW]
  · simp [treeW, nodesW]

end Bonsai
